import Mathlib

/-!
Verification of the Tungsten renderer core against its specification.

The development shallowly embeds the C++ sources:
  src/core/renderer/Renderer.cpp        (adaptive sample distribution)
  src/core/bsdfs/PlasticBsdf.cpp        (plastic BSDF sample/eval/pdf)
  src/core/materials/BitmapTexture.cpp  (bitmap lookup and importance sampling)
  src/core/primitives/TriangleMesh.cpp  (area sampling, material clamping)

Machine floats are modelled by exact rationals; external library helpers whose
sources are not part of the repository snapshot (Fresnel, SampleWarp,
Distribution1D/2D, std::sqrt, std::exp) are kept as abstract parameters or
modelled from the specification, as noted on each definition.
-/

namespace Tungsten

/-- C++ integer truncation `int(x)`: rounds toward zero. -/
def ratTrunc (q : ℚ) : ℤ := if 0 ≤ q then ⌊q⌋ else ⌈q⌉

/-- Tungsten `clamp(val, minVal, maxVal) = min(max(val, minVal), maxVal)` on integers. -/
def cppClamp (x lo hi : ℤ) : ℤ := min (max x lo) hi

/-- C++ remainder `a % b` (truncated, sign of the dividend). -/
def cppMod (a b : ℤ) : ℤ := Int.tmod a b

/-! ## Render driver (Renderer.cpp)

Per-variance-cell running statistics.  `errorEstimate` is the value returned by
`SampleRecord::errorEstimate()`; the record header is not part of the snapshot,
so (modelled from the spec) it is kept as an abstract per-record value, known
from the spec formula to be nonnegative. -/

structure SampleRecord where
  sampleIndex : ℤ
  nextSampleCount : ℤ
  errorEstimate : ℚ
  adaptiveWeight : ℚ
deriving DecidableEq

instance : Inhabited SampleRecord := ⟨⟨0, 0, 0, 0⟩⟩

/-- Renderer configuration: image size `w × h`, the `VarianceTileSize` and
`AdaptiveThreshold` constants (declared in Renderer.hpp), and the
`useAdaptiveSampling` renderer setting. -/
structure RendererCfg where
  w : ℕ
  h : ℕ
  vts : ℕ
  threshold : ℕ
  enableAdaptive : Bool
deriving DecidableEq

/-- Width of the variance-cell grid: `(_w + VarianceTileSize - 1)/VarianceTileSize`. -/
def varianceW (cfg : RendererCfg) : ℕ := (cfg.w + cfg.vts - 1) / cfg.vts

/-- Height of the variance-cell grid. -/
def varianceH (cfg : RendererCfg) : ℕ := (cfg.h + cfg.vts - 1) / cfg.vts

/-- Renderer::errorPercentile95: writes `adaptiveWeight = errorEstimate()` into every
record, collects the positive weights, and returns the element at index
`size*95/100` of the sorted list (0 when no cell has positive error), together
with the updated records. -/
def errorPercentile95 (recs : List SampleRecord) : ℚ × List SampleRecord :=
  let recs1 := recs.map (fun r => { r with adaptiveWeight := r.errorEstimate })
  let errors := (recs1.map (fun r => r.adaptiveWeight)).filter (fun e => 0 < e)
  if errors.isEmpty then (0, recs1)
  else ((errors.mergeSort (fun a b => a ≤ b)).getD (errors.length * 95 / 100) 0, recs1)

/-- Row-major iteration order of the two dilation loops:
`y` outer from 0 to varianceH-1, `x` inner from 0 to varianceW-1. -/
def gridIndices (varW varH : ℕ) : List (ℕ × ℕ) :=
  (List.range varH).flatMap (fun y => (List.range varW).map (fun x => (x, y)))

/-- One iteration of the forward dilation loop body at cell `(x, y)`:
take the max with the cell below (`idx + varianceW`) when `y < varianceH - 1`,
then with the cell to the right (`idx + 1`) when `x < varianceW - 1`. -/
def dilateStepF (varW varH : ℕ) (ws : ℕ → ℚ) (xy : ℕ × ℕ) : ℕ → ℚ :=
  let idx := xy.1 + xy.2 * varW
  let ws1 := if xy.2 < varH - 1 then Function.update ws idx (max (ws idx) (ws (idx + varW))) else ws
  if xy.1 < varW - 1 then Function.update ws1 idx (max (ws1 idx) (ws1 (idx + 1))) else ws1

/-- One iteration of the backward dilation loop body at cell `(x, y)`:
take the max with the cell above (`idx - varianceW`) when `y > 0`,
then with the cell to the left (`idx - 1`) when `x > 0`. -/
def dilateStepB (varW : ℕ) (ws : ℕ → ℚ) (xy : ℕ × ℕ) : ℕ → ℚ :=
  let idx := xy.1 + xy.2 * varW
  let ws1 := if 0 < xy.2 then Function.update ws idx (max (ws idx) (ws (idx - varW))) else ws
  if 0 < xy.1 then Function.update ws1 idx (max (ws1 idx) (ws1 (idx - 1))) else ws1

/-- Renderer::dilateAdaptiveWeights: a forward row-major pass taking 4-neighbor
maxima with the cell below and to the right, then a backward pass (reverse
row-major order) with the cell above and to the left.  The grid of
`adaptiveWeight` values is represented as a function on flat indices
`idx = x + y*varianceW`. -/
def dilateAdaptiveWeights (varW varH : ℕ) (ws : ℕ → ℚ) : ℕ → ℚ :=
  let fwd := (gridIndices varW varH).foldl (dilateStepF varW varH) ws
  ((gridIndices varW varH).reverse).foldl (dilateStepB varW) fwd

/-- Loop body of Renderer::distributeAdaptiveSamples: walk the records in order
keeping the fractional accumulator `pixelPdf`; `draws i` is the value of
`_sampler.next1D()` consumed at the i-th record. -/
def distributeGo (factor : ℚ) (draws : ℕ → ℚ) : ℕ → ℚ → List SampleRecord → List SampleRecord
  | _, _, [] => []
  | i, pixelPdf, r :: rest =>
    let fractionalSamples := r.adaptiveWeight * factor
    let adaptiveSamples : ℤ := ratTrunc fractionalSamples
    let pdf1 := pixelPdf + (fractionalSamples - (adaptiveSamples : ℚ))
    if draws i < pdf1 then
      { r with nextSampleCount := (adaptiveSamples + 1) + 1 } ::
        distributeGo factor draws (i + 1) (pdf1 - 1) rest
    else
      { r with nextSampleCount := adaptiveSamples + 1 } ::
        distributeGo factor draws (i + 1) pdf1 rest

/-- Renderer::distributeAdaptiveSamples: `adaptiveBudget = (spp - 1)*w*h`,
`budgetPerTile = adaptiveBudget / VarianceTileSize²` (C++ integer division),
`factor = budgetPerTile / totalWeight`, then the stochastic-rounding walk. -/
def distributeAdaptiveSamples (cfg : RendererCfg) (spp : ℤ) (draws : ℕ → ℚ)
    (recs : List SampleRecord) : List SampleRecord :=
  let totalWeight := (recs.map (fun r => r.adaptiveWeight)).sum
  let adaptiveBudget := (spp - 1) * (cfg.w : ℤ) * (cfg.h : ℤ)
  let budgetPerTile := Int.tdiv adaptiveBudget ((cfg.vts : ℤ) * (cfg.vts : ℤ))
  let factor := (budgetPerTile : ℚ) / totalWeight
  distributeGo factor draws 0 0 recs

/-- Renderer::generateWork.  Advances every record's `sampleIndex` by its
`nextSampleCount`, then either distributes the budget uniformly
(`nextSampleCount = sppCount` for every record, returning true) or, when
adaptive sampling is enabled and `sppFrom >= AdaptiveThreshold`, runs the
adaptive pipeline: 95th error percentile (returning false when it is zero),
clamping of `adaptiveWeight` to the percentile, dilation, and stochastic
distribution.  `draws` is the stream of `_sampler.next1D()` values consumed by
`distributeAdaptiveSamples`. -/
def generateWork (cfg : RendererCfg) (draws : ℕ → ℚ) (sppFrom sppTo : ℕ)
    (recs : List SampleRecord) : Bool × List SampleRecord :=
  let recs0 := recs.map (fun r => { r with sampleIndex := r.sampleIndex + r.nextSampleCount })
  let sppCount : ℤ := (sppTo : ℤ) - (sppFrom : ℤ)
  if cfg.enableAdaptive = true ∧ cfg.threshold ≤ sppFrom then
    let pr := errorPercentile95 recs0
    let maxError := pr.1
    let recs1 := pr.2
    if maxError = 0 then (false, recs1)
    else
      let recs2 := recs1.map (fun r => { r with adaptiveWeight := min r.adaptiveWeight maxError })
      let ws := fun i => (recs2.getD i default).adaptiveWeight
      let ws1 := dilateAdaptiveWeights (varianceW cfg) (varianceH cfg) ws
      let recs3 := (List.range recs2.length).map
        (fun i => { recs2.getD i default with adaptiveWeight := ws1 i })
      (true, distributeAdaptiveSamples cfg sppCount draws recs3)
  else
    (true, recs0.map (fun r => { r with nextSampleCount := sppCount }))

/-! ## Vectors

Componentwise 3-vector over ℚ, mirroring Vec3f and its componentwise operator
conventions (`Vec3f*Vec3f`, `Vec3f/Vec3f`, `scalar - Vec3f`, `Vec3f*scalar`). -/

structure Vec3q where
  x : ℚ
  y : ℚ
  z : ℚ
deriving DecidableEq

namespace Vec3q

/-- Constant (broadcast) vector, as in `Vec3f(s)`. -/
def const (s : ℚ) : Vec3q := ⟨s, s, s⟩

/-- Componentwise sum. -/
def add (a b : Vec3q) : Vec3q := ⟨a.x + b.x, a.y + b.y, a.z + b.z⟩

/-- Componentwise difference. -/
def sub (a b : Vec3q) : Vec3q := ⟨a.x - b.x, a.y - b.y, a.z - b.z⟩

/-- Componentwise product. -/
def mul (a b : Vec3q) : Vec3q := ⟨a.x * b.x, a.y * b.y, a.z * b.z⟩

/-- Componentwise quotient (`Vec3f/Vec3f`). -/
def divV (a b : Vec3q) : Vec3q := ⟨a.x / b.x, a.y / b.y, a.z / b.z⟩

/-- Scalar multiple. -/
def smul (s : ℚ) (a : Vec3q) : Vec3q := ⟨s * a.x, s * a.y, s * a.z⟩

/-- Division by a scalar. -/
def divC (a : Vec3q) (s : ℚ) : Vec3q := ⟨a.x / s, a.y / s, a.z / s⟩

/-- Scalar minus vector, as in `1.0f - diffuseAlbedo*F`. -/
def scalarSub (s : ℚ) (a : Vec3q) : Vec3q := ⟨s - a.x, s - a.y, s - a.z⟩

/-- Componentwise application of a scalar function, as in `std::exp(Vec3f)`. -/
def map (f : ℚ → ℚ) (a : Vec3q) : Vec3q := ⟨f a.x, f a.y, f a.z⟩

/-- Largest component, `Vec3f::max()`. -/
def maxC (a : Vec3q) : ℚ := max a.x (max a.y a.z)

/-- Dot product. -/
def dot (a b : Vec3q) : ℚ := a.x * b.x + a.y * b.y + a.z * b.z

/-- Cross product. -/
def cross (a b : Vec3q) : Vec3q :=
  ⟨a.y * b.z - a.z * b.y, a.z * b.x - a.x * b.z, a.x * b.y - a.y * b.x⟩

/-- Squared length. -/
def lengthSq (a : Vec3q) : ℚ := a.dot a

/-- Negation. -/
def neg (a : Vec3q) : Vec3q := ⟨-a.x, -a.y, -a.z⟩

end Vec3q

/-! ## Plastic BSDF (PlasticBsdf.cpp)

External helpers that are not part of the snapshot stay abstract:
`fres eta cosTheta` stands for `Fresnel::dielectricReflectance(eta, cosTheta)`,
`rexp` for the scalar `std::exp`, and `cosHemi u` for
`SampleWarp::cosineHemisphere(u)`.  The theorems below hold for every choice of
these functions. -/

/-- Modelled from the spec: `SampleWarp::cosineHemispherePdf` is the density of
the cosine-weighted hemisphere, `cos θ / π = wo.z * INV_PI` (SampleWarp.hpp is
not in the snapshot); `invPi` stands for the positive constant `INV_PI`. -/
def cosineHemispherePdf (invPi : ℚ) (wo : Vec3q) : ℚ := wo.z * invPi

/-- Parameters of a prepared PlasticBsdf at a fixed surface point:
`ior`, the derived `scaledSigmaA = thickness*sigmaA`,
`avgTransmittance = exp(-2*scaledSigmaA.avg())`, the numerically integrated
`diffuseFresnel`, and `albedo = albedo(event.info)` at the point. -/
structure Plastic where
  ior : ℚ
  scaledSigmaA : Vec3q
  avgTransmittance : ℚ
  diffuseFresnel : ℚ
  albedo : Vec3q
deriving DecidableEq

/-- Scattering lobes a PlasticBsdf can produce. -/
inductive Lobe where
  | specularReflection
  | diffuseReflection
deriving DecidableEq

/-- What PlasticBsdf::sample writes into the scatter event. -/
structure ScatterResult where
  wo : Vec3q
  pdf : ℚ
  throughput : Vec3q
  sampledLobe : Lobe
deriving DecidableEq

/-- Specular selection probability `Fi / (Fi + avgTransmittance*(1 - Fi))`
computed by PlasticBsdf::sample and PlasticBsdf::pdf. -/
def specularProbability (P : Plastic) (fres : ℚ → ℚ → ℚ) (wiZ : ℚ) : ℚ :=
  let Fi := fres (1 / P.ior) wiZ
  Fi / (Fi + P.avgTransmittance * (1 - Fi))

/-- Absorption factor `exp(scaledSigmaA*(-1/wo.z - 1/wi.z))` applied when
`scaledSigmaA.max() > 0`. -/
def plasticAbsorption (P : Plastic) (rexp : ℚ → ℚ) (wiZ woZ : ℚ) : Vec3q :=
  (P.scaledSigmaA.smul (-1 / woZ - 1 / wiZ)).map rexp

/-- PlasticBsdf::sample.  `sampleR`/`sampleT` are
`event.requestedLobe.test(SpecularReflectionLobe)` and
`... .test(DiffuseReflectionLobe)`; `u1` is the `next1D()` branch draw and
`u2` the `next2D()` pair consumed by the cosine-hemisphere warp.  Returns
`none` exactly when the C++ function returns false. -/
def PlasticBsdf.sample (P : Plastic) (fres : ℚ → ℚ → ℚ) (rexp : ℚ → ℚ) (invPi : ℚ)
    (cosHemi : ℚ × ℚ → Vec3q) (wi : Vec3q) (sampleR sampleT : Bool)
    (u1 : ℚ) (u2 : ℚ × ℚ) : Option ScatterResult :=
  if wi.z ≤ 0 then none
  else
    let eta := 1 / P.ior
    let Fi := fres eta wi.z
    let specProb := specularProbability P fres wi.z
    if sampleR = true ∧ (u1 < specProb ∨ ¬sampleT = true) then
      some { wo := ⟨-wi.x, -wi.y, wi.z⟩
             pdf := 0
             throughput := if sampleT then Vec3q.const (Fi / specProb) else Vec3q.const Fi
             sampledLobe := Lobe.specularReflection }
    else
      let wo := cosHemi u2
      let Fo := fres eta wo.z
      let tput0 := Vec3q.smul ((1 - Fi) * (1 - Fo) * eta * eta)
        (P.albedo.divV (Vec3q.scalarSub 1 (P.albedo.smul P.diffuseFresnel)))
      let tput1 := if 0 < P.scaledSigmaA.maxC
        then tput0.mul (plasticAbsorption P rexp wi.z wo.z) else tput0
      let pdf0 := cosineHemispherePdf invPi wo
      if sampleR then
        some { wo := wo, pdf := pdf0 * (1 - specProb)
               throughput := tput1.divC (1 - specProb)
               sampledLobe := Lobe.diffuseReflection }
      else
        some { wo := wo, pdf := pdf0, throughput := tput1
               sampledLobe := Lobe.diffuseReflection }

/-- PlasticBsdf::eval on an event with directions `wi`, `wo` and with
`sampleT = event.requestedLobe.test(DiffuseReflectionLobe)`. -/
def PlasticBsdf.eval (P : Plastic) (fres : ℚ → ℚ → ℚ) (rexp : ℚ → ℚ) (invPi : ℚ)
    (wi wo : Vec3q) (sampleT : Bool) : Vec3q :=
  if ¬sampleT = true then Vec3q.const 0
  else if wi.z ≤ 0 ∨ wo.z ≤ 0 then Vec3q.const 0
  else
    let eta := 1 / P.ior
    let Fi := fres eta wi.z
    let Fo := fres eta wo.z
    let brdf := Vec3q.smul ((1 - Fi) * (1 - Fo) * eta * eta * wo.z * invPi)
      (P.albedo.divV (Vec3q.scalarSub 1 (P.albedo.smul P.diffuseFresnel)))
    if 0 < P.scaledSigmaA.maxC then brdf.mul (plasticAbsorption P rexp wi.z wo.z)
    else brdf

/-- PlasticBsdf::pdf on an event with directions `wi`, `wo` and requested lobes
`sampleR`, `sampleT`. -/
def PlasticBsdf.pdf (P : Plastic) (fres : ℚ → ℚ → ℚ) (invPi : ℚ)
    (wi wo : Vec3q) (sampleR sampleT : Bool) : ℚ :=
  if wi.z ≤ 0 ∨ wo.z ≤ 0 then 0
  else if ¬sampleT = true then 0
  else
    let pdf0 := cosineHemispherePdf invPi wo
    if sampleR then pdf0 * (1 - specularProbability P fres wi.z) else pdf0

/-! ## Bitmap texture (BitmapTexture.cpp) -/

/-- Bilinear blend used by BitmapTexture::lerp, componentwise on Vec3q. -/
def texLerp (x00 x01 x10 x11 : Vec3q) (u v : ℚ) : Vec3q :=
  Vec3q.add
    (Vec3q.smul (1 - v) (Vec3q.add (Vec3q.smul (1 - u) x00) (Vec3q.smul u x01)))
    (Vec3q.smul v (Vec3q.add (Vec3q.smul (1 - u) x10) (Vec3q.smul u x11)))

/-- Wrap of an integer texel coordinate, `((i % n) + n) % n` with C++
truncated `%`. -/
def wrapCoord (i : ℤ) (n : ℕ) : ℤ := cppMod (cppMod i n + n) n

/-- BitmapTexture::operator[](Vec2f): texel coordinates `u*W` and `(1-v)*H`,
integer parts truncated toward zero, wrapped modulo the image dimensions
unless `clampFlag` is set, clamped to `[0, W-2]` (linear) or `[0, W-1]`
(nearest), then bilinear interpolation or nearest-texel fetch.  `texel x y`
stands for `getRgb(x, y)` on the pixel data. -/
def bitmapLookup (w h : ℕ) (texel : ℤ → ℤ → Vec3q) (linear clampFlag : Bool)
    (uv : ℚ × ℚ) : Vec3q :=
  let u0 := uv.1 * (w : ℚ)
  let v0 := (1 - uv.2) * (h : ℚ)
  let iu0 := ratTrunc u0
  let iv0 := ratTrunc v0
  let u := u0 - (iu0 : ℚ)
  let v := v0 - (iv0 : ℚ)
  let iu1 := if clampFlag then iu0 else wrapCoord iu0 w
  let iv1 := if clampFlag then iv0 else wrapCoord iv0 h
  let iu := if linear then cppClamp iu1 0 ((w : ℤ) - 2) else cppClamp iu1 0 ((w : ℤ) - 1)
  let iv := if linear then cppClamp iv1 0 ((h : ℤ) - 2) else cppClamp iv1 0 ((h : ℤ) - 1)
  if ¬linear = true then texel iu iv
  else texLerp (texel iu iv) (texel (iu + 1) iv) (texel iu (iv + 1)) (texel (iu + 1) (iv + 1)) u v

/-- Modelled from the spec: the behaviour claimed for `lookup(uv)` — texel
coordinates `u*W` and `(1-v)*H` (inverting V), integer parts wrapped modulo
the image dimensions, and either the nearest texel or the bilinear
interpolation of the four surrounding texels (neighbors taken with the same
wrapping). -/
def bitmapLookupClaimed (w h : ℕ) (texel : ℤ → ℤ → Vec3q) (linear : Bool)
    (uv : ℚ × ℚ) : Vec3q :=
  let u0 := uv.1 * (w : ℚ)
  let v0 := (1 - uv.2) * (h : ℚ)
  let iu0 := ratTrunc u0
  let iv0 := ratTrunc v0
  let u := u0 - (iu0 : ℚ)
  let v := v0 - (iv0 : ℚ)
  let iu := wrapCoord iu0 w
  let iv := wrapCoord iv0 h
  if ¬linear = true then texel iu iv
  else texLerp (texel iu iv) (texel (wrapCoord (iu0 + 1) w) iv)
    (texel iu (wrapCoord (iv0 + 1) h))
    (texel (wrapCoord (iu0 + 1) w) (wrapCoord (iv0 + 1) h)) u v

/-- Modelled from the spec: the relevant interface of `Distribution2D`
(sampling/Distribution2D.hpp is not in the snapshot).  `warp(uv, row, column)`
replaces `uv` by an in-cell fractional position and writes the chosen row and
column; `cellPdf row column` is the `pdf(row, column)` cell density. -/
structure Distribution2D where
  warpRow : ℚ × ℚ → ℕ
  warpCol : ℚ × ℚ → ℕ
  warpUv : ℚ × ℚ → ℚ × ℚ
  cellPdf : ℤ → ℤ → ℚ

/-- BitmapTexture::sample(jacobian, uv): warp through the distribution, then
return `((newUv.x + column)/W, 1 - (newUv.y + row)/H)`. -/
def BitmapTexture.sample (w h : ℕ) (d : Distribution2D) (uv : ℚ × ℚ) : ℚ × ℚ :=
  let row := d.warpRow uv
  let col := d.warpCol uv
  let newUv := d.warpUv uv
  ((newUv.1 + (col : ℚ)) / (w : ℚ), 1 - (newUv.2 + (row : ℚ)) / (h : ℚ))

/-- BitmapTexture::pdf(jacobian, uv):
`distribution.pdf(int((1 - uv.y)*H), int(uv.x*W)) * W * H`. -/
def BitmapTexture.pdf (w h : ℕ) (d : Distribution2D) (uv : ℚ × ℚ) : ℚ :=
  d.cellPdf (ratTrunc ((1 - uv.2) * (h : ℚ))) (ratTrunc (uv.1 * (w : ℚ))) * (w : ℚ) * (h : ℚ)

/-! ## Triangle mesh (TriangleMesh.cpp) -/

/-- Triangle record `TriangleI`: three vertex indices and a material index. -/
structure TriangleI where
  v0 : ℕ
  v1 : ℕ
  v2 : ℕ
  material : ℤ
deriving DecidableEq

/-- The parts of a TriangleMesh that the safety claim about material indices
concerns: vertex list, triangle list, BSDF list (held abstract as a count of
slots via a list of unit markers is avoided — the list elements are irrelevant,
only positions are looked up). -/
structure Mesh where
  verts : List Vec3q
  tris : List TriangleI
  numBsdfs : ℕ
deriving DecidableEq

/-- The triangle-processing part of TriangleMesh::prepareForRender: after the
early return for empty geometry, every triangle's material index is clamped to
`[0, numBsdfs - 1]`. -/
def TriangleMesh.prepareForRender (m : Mesh) : Mesh :=
  if m.verts.isEmpty ∨ m.tris.isEmpty then m
  else
    let tris1 := m.tris.map
      (fun t => { t with material := cppClamp t.material 0 ((m.numBsdfs : ℤ) - 1) })
    { m with tris := tris1 }

/-- The BSDF index used by TriangleMesh::intersectionInfo for a hit on triangle
`id0`: `_bsdfs[_tris[id0].material]`. -/
def TriangleMesh.bsdfIndexAt (m : Mesh) (id0 : ℕ) : ℤ :=
  (m.tris.getD id0 ⟨0, 0, 0, 0⟩).material

/-- Direction normalization `v.normalized() = v / length(v)` with
`length = sqrt(lengthSq)`; `sqrtQ` stands for the external `std::sqrt`. -/
def vnormalize (sqrtQ : ℚ → ℚ) (v : Vec3q) : Vec3q := v.divC (sqrtQ v.lengthSq)

/-- What TriangleMesh::sampleInboundDirection writes into the light sample. -/
structure InboundSample where
  dist : ℚ
  d : Vec3q
  pdf : ℚ
deriving DecidableEq

/-- Unit normal of the triangle selected by the warp:
`normal = (p1 - p0).cross(p2 - p0).normalized()`. -/
def sampledTriNormal (sqrtQ : ℚ → ℚ) (tfVerts : ℕ → Vec3q) (tri : ℕ → ℕ × ℕ × ℕ)
    (idx : ℕ) : Vec3q :=
  let p0 := tfVerts (tri idx).1
  let p1 := tfVerts (tri idx).2.1
  let p2 := tfVerts (tri idx).2.2
  vnormalize sqrtQ ((p1.sub p0).cross (p2.sub p0))

/-- Point `q = SampleWarp::uniformTriangle(u2, p0, p1, p2)` on the selected
triangle; `uniTri` stands for the external warp. -/
def sampledTriPoint (uniTri : ℚ × ℚ → Vec3q → Vec3q → Vec3q → Vec3q)
    (tfVerts : ℕ → Vec3q) (tri : ℕ → ℕ × ℕ × ℕ) (idx : ℕ) (u2 : ℚ × ℚ) : Vec3q :=
  uniTri u2 (tfVerts (tri idx).1) (tfVerts (tri idx).2.1) (tfVerts (tri idx).2.2)

/-- TriangleMesh::sampleInboundDirection.  External helpers stay abstract:
`warpIdx u` is the triangle index chosen by `Distribution1D::warp(u, idx)`,
`uniTri u p0 p1 p2` is `SampleWarp::uniformTriangle(u, p0, p1, p2)`, and
`sqrtQ` is `std::sqrt`.  `tfVerts` is the transformed vertex table and `tri`
the triangle table; `p` is the query point `sample.p`. -/
def TriangleMesh.sampleInboundDirection (sqrtQ : ℚ → ℚ) (warpIdx : ℚ → ℕ)
    (uniTri : ℚ × ℚ → Vec3q → Vec3q → Vec3q → Vec3q)
    (tfVerts : ℕ → Vec3q) (tri : ℕ → ℕ × ℕ × ℕ) (totalArea : ℚ)
    (p : Vec3q) (u1 : ℚ) (u2 : ℚ × ℚ) : Option InboundSample :=
  let idx := warpIdx u1
  let normal := sampledTriNormal sqrtQ tfVerts tri idx
  let q := sampledTriPoint uniTri tfVerts tri idx u2
  let L := q.sub p
  let rSq := L.lengthSq
  let dist := sqrtQ rSq
  let d := L.divC dist
  let cosTheta := -(normal.dot d)
  if cosTheta ≤ 0 then none
  else some { dist := dist, d := d, pdf := rSq / (cosTheta * totalArea) }

/-- TriangleMesh::inboundPdf:
`(p - info.p).lengthSq() / (-d.dot(info.Ng.normalized()) * totalArea)`, where
`info.Ng` is already the normalized geometric normal set by intersectionInfo. -/
def TriangleMesh.inboundPdf (totalArea : ℚ) (infoP ng : Vec3q) (p d : Vec3q) : ℚ :=
  ((p.sub infoP).lengthSq) / (-(d.dot ng) * totalArea)

/-! ## Theorems -/

theorem Vec3q.ext_iff {a b : Vec3q} : a = b ↔ a.x = b.x ∧ a.y = b.y ∧ a.z = b.z := by
  cases a
  cases b
  simp [Vec3q.mk.injEq]

/-- C10 counterexample: for a triangle mesh with one BSDF but an empty vertex
list, prepareForRender returns before the clamping loop, so a triangle's
material index can stay outside `[0, numBsdfs - 1]`. -/
theorem C10_counterexample :
    ¬ (∀ t ∈ (TriangleMesh.prepareForRender ⟨[], [⟨0, 0, 0, 5⟩], 1⟩).tris,
        0 ≤ t.material ∧ t.material < (1 : ℤ)) := by
  intro hall
  have h5 := hall ⟨0, 0, 0, 5⟩ (by simp [TriangleMesh.prepareForRender])
  simp only [] at h5
  omega

/-- C10 (amended): for every triangle mesh with at least one BSDF and nonempty
vertex and triangle lists, after prepareForRender every triangle's material
index lies in `[0, numBsdfs - 1]`, and hence the BSDF index used by
intersectionInfo for any hit triangle is within bounds. -/
theorem C10_material_indices_in_bounds (m : Mesh) (hv : m.verts ≠ [])
    (ht : m.tris ≠ []) (hb : 1 ≤ m.numBsdfs) :
    (∀ t ∈ (TriangleMesh.prepareForRender m).tris,
      0 ≤ t.material ∧ t.material < (m.numBsdfs : ℤ)) ∧
    (∀ id0 < (TriangleMesh.prepareForRender m).tris.length,
      0 ≤ TriangleMesh.bsdfIndexAt (TriangleMesh.prepareForRender m) id0 ∧
      TriangleMesh.bsdfIndexAt (TriangleMesh.prepareForRender m) id0 < (m.numBsdfs : ℤ)) := by
  have hmain : ∀ t ∈ (TriangleMesh.prepareForRender m).tris,
      0 ≤ t.material ∧ t.material < (m.numBsdfs : ℤ) := by
    intro t htm
    unfold TriangleMesh.prepareForRender at htm
    rw [if_neg (by simp [List.isEmpty_iff, hv, ht])] at htm
    simp only [List.mem_map] at htm
    obtain ⟨t0, _, rfl⟩ := htm
    simp only [cppClamp]
    omega
  refine ⟨hmain, ?_⟩
  intro id0 hid
  have hmem : (TriangleMesh.prepareForRender m).tris.getD id0 ⟨0, 0, 0, 0⟩
      ∈ (TriangleMesh.prepareForRender m).tris := by
    rw [List.getD_eq_getElem _ _ hid]
    exact List.getElem_mem hid
  exact hmain _ hmem

/-- C10 witness: a concrete one-triangle mesh with two BSDFs and an
out-of-range material index 7, clamped into bounds by prepareForRender. -/
theorem C10_witness :
    0 ≤ TriangleMesh.bsdfIndexAt
        (TriangleMesh.prepareForRender ⟨[⟨0, 0, 0⟩], [⟨0, 1, 2, 7⟩], 2⟩) 0 ∧
      TriangleMesh.bsdfIndexAt
        (TriangleMesh.prepareForRender ⟨[⟨0, 0, 0⟩], [⟨0, 1, 2, 7⟩], 2⟩) 0 < ((2 : ℕ) : ℤ) :=
  (C10_material_indices_in_bounds ⟨[⟨0, 0, 0⟩], [⟨0, 1, 2, 7⟩], 2⟩ (by simp) (by simp)
    (by norm_num)).2 0 (by simp [TriangleMesh.prepareForRender])

/-- C4: the sample/pdf round trip of a bitmap texture.  When the distribution
warp produces in-cell fractional coordinates in `[0,1)`, the pdf evaluated at
the sampled UV recovers exactly the warped cell (row through the V inversion
`1 - v`, column through `u`), so `pdf(sample(u)) = cellPdf(row, col) * W * H`. -/
theorem C4_sample_pdf_roundtrip (w h : ℕ) (d : Distribution2D) (uv : ℚ × ℚ)
    (hw : 0 < w) (hh : 0 < h)
    (hu0 : 0 ≤ (d.warpUv uv).1) (hu1 : (d.warpUv uv).1 < 1)
    (hv0 : 0 ≤ (d.warpUv uv).2) (hv1 : (d.warpUv uv).2 < 1) :
    BitmapTexture.pdf w h d (BitmapTexture.sample w h d uv)
      = d.cellPdf (d.warpRow uv) (d.warpCol uv) * (w : ℚ) * (h : ℚ) := by
  have hwq : ((w : ℚ)) ≠ 0 := by positivity
  have hhq : ((h : ℚ)) ≠ 0 := by positivity
  unfold BitmapTexture.pdf BitmapTexture.sample
  have hrow : (1 - (1 - ((d.warpUv uv).2 + ((d.warpRow uv : ℕ) : ℚ)) / (h : ℚ))) * (h : ℚ)
      = (d.warpUv uv).2 + ((d.warpRow uv : ℕ) : ℚ) := by
    field_simp
  have hcol : (((d.warpUv uv).1 + ((d.warpCol uv : ℕ) : ℚ)) / (w : ℚ)) * (w : ℚ)
      = (d.warpUv uv).1 + ((d.warpCol uv : ℕ) : ℚ) := by
    field_simp
  rw [hrow, hcol]
  have htr : ∀ (a : ℚ) (n : ℕ), 0 ≤ a → a < 1 → ratTrunc (a + (n : ℚ)) = (n : ℤ) := by
    intro a n ha ha1
    have : ratTrunc (a + (n : ℚ)) = ⌊a + (n : ℚ)⌋ := by
      unfold ratTrunc
      rw [if_pos (by positivity)]
    rw [this]
    have : ((n : ℚ)) = (((n : ℤ)) : ℚ) := by push_cast; ring
    rw [this, Int.floor_add_int]
    have : ⌊a⌋ = 0 := Int.floor_eq_zero_iff.mpr ⟨ha, ha1⟩
    omega
  rw [htr _ _ hv0 hv1, htr _ _ hu0 hu1]

/-- C4 witness: a concrete 2×2 distribution whose warp picks row 1, column 0
with in-cell offset (1/2, 1/4); the round trip returns the cell pdf 3 scaled
by W·H = 4. -/
theorem C4_witness :
    BitmapTexture.pdf 2 2
        ⟨fun _ => 1, fun _ => 0, fun _ => (1/2, 1/4), fun r c => if r = 1 ∧ c = 0 then 3 else 0⟩
        (BitmapTexture.sample 2 2
          ⟨fun _ => 1, fun _ => 0, fun _ => (1/2, 1/4), fun r c => if r = 1 ∧ c = 0 then 3 else 0⟩
          (1/3, 1/3))
      = 3 * (2 : ℚ) * (2 : ℚ) := by
  rw [C4_sample_pdf_roundtrip 2 2 _ _ (by norm_num) (by norm_num) (by norm_num)
    (by norm_num) (by norm_num) (by norm_num)]
  norm_num

/-- C6: PlasticBsdf::sample returns false exactly when `wi.z <= 0`; when it
takes the specular branch (specular lobe requested, and the branch draw below
the specular probability or the diffuse lobe not requested) it writes the
mirrored direction, pdf 0, throughput `Fi/p` (both lobes requested) or `Fi`
(specular only), and the specular-reflection lobe. -/
theorem C6_plastic_sample_specular (P : Plastic) (fres : ℚ → ℚ → ℚ) (rexp : ℚ → ℚ)
    (invPi : ℚ) (cosHemi : ℚ × ℚ → Vec3q) (wi : Vec3q) (sampleR sampleT : Bool)
    (u1 : ℚ) (u2 : ℚ × ℚ) :
    (PlasticBsdf.sample P fres rexp invPi cosHemi wi sampleR sampleT u1 u2 = none ↔ wi.z ≤ 0) ∧
    (0 < wi.z → sampleR = true →
      (u1 < specularProbability P fres wi.z ∨ sampleT = false) →
      PlasticBsdf.sample P fres rexp invPi cosHemi wi sampleR sampleT u1 u2
        = some ⟨⟨-wi.x, -wi.y, wi.z⟩, 0,
            if sampleT then Vec3q.const (fres (1 / P.ior) wi.z / specularProbability P fres wi.z)
            else Vec3q.const (fres (1 / P.ior) wi.z),
            Lobe.specularReflection⟩) := by
  constructor
  · constructor
    · intro hnone
      by_contra hwz
      unfold PlasticBsdf.sample at hnone
      rw [if_neg hwz] at hnone
      by_cases hc : sampleR = true ∧ (u1 < specularProbability P fres wi.z ∨ ¬sampleT = true)
      · rw [if_pos hc] at hnone
        exact Option.noConfusion hnone
      · rw [if_neg hc] at hnone
        by_cases hR : sampleR = true
        · rw [if_pos hR] at hnone
          exact Option.noConfusion hnone
        · rw [if_neg hR] at hnone
          exact Option.noConfusion hnone
    · intro hle
      unfold PlasticBsdf.sample
      rw [if_pos hle]
  · intro hwz hR hcond
    unfold PlasticBsdf.sample
    rw [if_neg (not_le.mpr hwz), if_pos]
    · rcases hcond with h | h
      · exact ⟨hR, Or.inl h⟩
      · exact ⟨hR, Or.inr (by simp [h])⟩

/-- C6 witness: concrete plastic material and event taking the specular
branch. -/
theorem C6_witness :
    (0 : ℚ) < (Vec3q.mk 0 0 1).z ∧
    PlasticBsdf.sample ⟨2, ⟨0, 0, 0⟩, 1, 0, ⟨1, 1, 1⟩⟩ (fun _ _ => 1/2) id (1/3)
        (fun _ => ⟨0, 0, 1⟩) ⟨0, 0, 1⟩ true true 0 (0, 0)
      = some ⟨⟨0, 0, 1⟩, 0, Vec3q.const 1, Lobe.specularReflection⟩ := by
  constructor
  · norm_num
  · have h := (C6_plastic_sample_specular ⟨2, ⟨0, 0, 0⟩, 1, 0, ⟨1, 1, 1⟩⟩ (fun _ _ => 1/2) id (1/3)
      (fun _ => ⟨0, 0, 1⟩) ⟨0, 0, 1⟩ true true 0 (0, 0)).2 (by norm_num) rfl
      (Or.inl (by norm_num [specularProbability]))
    rw [h]
    norm_num [specularProbability, Vec3q.const]

/-- Helper: cancellation of the shared factor of eval and pdf in the throughput ratio. -/
theorem cancelRatioE (A0 b e wz ip s : ℚ) (hwz : wz ≠ 0) (hip : ip ≠ 0) :
    A0 * wz * ip * b * e / (wz * ip * s) = A0 * b * e / s := by
  rcases eq_or_ne s 0 with h | h
  · simp [h]
  · field_simp
    ring

/-- Helper: cancellation variant without the absorption factor. -/
theorem cancelRatioNoE (A0 b wz ip s : ℚ) (hwz : wz ≠ 0) (hip : ip ≠ 0) :
    A0 * wz * ip * b / (wz * ip * s) = A0 * b / s := by
  rcases eq_or_ne s 0 with h | h
  · simp [h]
  · field_simp
    ring

/-- Helper: cancellation variant without the lobe-selection factor. -/
theorem cancelNoSE (A0 b e wz ip : ℚ) (hwz : wz ≠ 0) (hip : ip ≠ 0) :
    A0 * wz * ip * b * e / (wz * ip) = A0 * b * e := by
  field_simp
  ring

/-- Helper: cancellation variant without selection or absorption factors. -/
theorem cancelNoSNoE (A0 b wz ip : ℚ) (hwz : wz ≠ 0) (hip : ip ≠ 0) :
    A0 * wz * ip * b / (wz * ip) = A0 * b := by
  field_simp
  ring

/-- C3: for a diffuse-branch scatter event of the plastic BSDF with
`wi.z > 0`, `wo.z > 0` and the same requested lobe set (diffuse requested),
PlasticBsdf::pdf returns exactly the pdf that sample wrote, and
PlasticBsdf::eval divided by that pdf is exactly the throughput that sample
wrote, the `1 - specularProbability` factors cancelling. -/
theorem C3_plastic_diffuse_consistency (P : Plastic) (fres : ℚ → ℚ → ℚ) (rexp : ℚ → ℚ)
    (invPi : ℚ) (cosHemi : ℚ × ℚ → Vec3q) (wi : Vec3q) (sampleR : Bool)
    (u1 : ℚ) (u2 : ℚ × ℚ) (ev : ScatterResult)
    (hwi : 0 < wi.z)
    (hsample : PlasticBsdf.sample P fres rexp invPi cosHemi wi sampleR true u1 u2 = some ev)
    (hdiff : ev.sampledLobe = Lobe.diffuseReflection)
    (hwo : 0 < ev.wo.z)
    (hpi : invPi ≠ 0) :
    PlasticBsdf.pdf P fres invPi wi ev.wo sampleR true = ev.pdf ∧
    (PlasticBsdf.eval P fres rexp invPi wi ev.wo true).divC ev.pdf = ev.throughput := by
  unfold PlasticBsdf.sample at hsample
  rw [if_neg (not_le.mpr hwi)] at hsample
  by_cases hc : sampleR = true ∧ (u1 < specularProbability P fres wi.z ∨ ¬(true : Bool) = true)
  · rw [if_pos hc, Option.some.injEq] at hsample
    rw [← hsample] at hdiff
    simp at hdiff
  · rw [if_neg hc] at hsample
    by_cases hR : sampleR = true
    · rw [if_pos hR, Option.some.injEq] at hsample
      subst hsample
      subst hR
      simp only [] at hwo ⊢
      constructor
      · unfold PlasticBsdf.pdf
        rw [if_neg (by push_neg; exact ⟨hwi, hwo⟩), if_neg (by simp), if_pos rfl]
      · unfold PlasticBsdf.eval
        rw [if_neg (by simp), if_neg (by push_neg; exact ⟨hwi, hwo⟩)]
        have hwz : (cosHemi u2).z ≠ 0 := ne_of_gt hwo
        rcases lt_or_le 0 P.scaledSigmaA.maxC with habs | habs
        · rw [if_pos habs, if_pos habs]
          rw [Vec3q.ext_iff]
          unfold cosineHemispherePdf Vec3q.smul Vec3q.mul Vec3q.divC
          refine ⟨?_, ?_, ?_⟩ <;>
            simp only [] <;>
            exact cancelRatioE _ _ _ _ _ _ hwz hpi
        · rw [if_neg (not_lt.mpr habs), if_neg (not_lt.mpr habs)]
          rw [Vec3q.ext_iff]
          unfold cosineHemispherePdf Vec3q.smul Vec3q.divC
          refine ⟨?_, ?_, ?_⟩ <;>
            simp only [] <;>
            exact cancelRatioNoE _ _ _ _ _ hwz hpi
    · rw [if_neg hR, Option.some.injEq] at hsample
      subst hsample
      simp only [] at hwo ⊢
      have hRf : sampleR = false := by
        revert hR
        cases sampleR <;> simp
      subst hRf
      constructor
      · unfold PlasticBsdf.pdf
        rw [if_neg (by push_neg; exact ⟨hwi, hwo⟩), if_neg (by simp), if_neg (by simp)]
      · unfold PlasticBsdf.eval
        rw [if_neg (by simp), if_neg (by push_neg; exact ⟨hwi, hwo⟩)]
        have hwz : (cosHemi u2).z ≠ 0 := ne_of_gt hwo
        rcases lt_or_le 0 P.scaledSigmaA.maxC with habs | habs
        · rw [if_pos habs, if_pos habs]
          rw [Vec3q.ext_iff]
          unfold cosineHemispherePdf Vec3q.smul Vec3q.mul Vec3q.divC
          refine ⟨?_, ?_, ?_⟩ <;>
            simp only [] <;>
            exact cancelNoSE _ _ _ _ _ hwz hpi
        · rw [if_neg (not_lt.mpr habs), if_neg (not_lt.mpr habs)]
          rw [Vec3q.ext_iff]
          unfold cosineHemispherePdf Vec3q.smul Vec3q.divC
          refine ⟨?_, ?_, ?_⟩ <;>
            simp only [] <;>
            exact cancelNoSNoE _ _ _ _ hwz hpi

/-- C3 witness: concrete diffuse-branch event; pdf agrees and
eval/pdf reproduces the sampled throughput. -/
theorem C3_witness :
    PlasticBsdf.pdf ⟨2, ⟨0, 0, 0⟩, 1, 0, ⟨1, 1, 1⟩⟩ (fun _ _ => 1/2) (1/3) ⟨0, 0, 1⟩
        (ScatterResult.mk ⟨0, 0, 1⟩ (1/6) ⟨1/8, 1/8, 1/8⟩ Lobe.diffuseReflection).wo true true
      = (ScatterResult.mk ⟨0, 0, 1⟩ (1/6) ⟨1/8, 1/8, 1/8⟩ Lobe.diffuseReflection).pdf ∧
    (PlasticBsdf.eval ⟨2, ⟨0, 0, 0⟩, 1, 0, ⟨1, 1, 1⟩⟩ (fun _ _ => 1/2) id (1/3) ⟨0, 0, 1⟩
        (ScatterResult.mk ⟨0, 0, 1⟩ (1/6) ⟨1/8, 1/8, 1/8⟩ Lobe.diffuseReflection).wo true).divC
        (ScatterResult.mk ⟨0, 0, 1⟩ (1/6) ⟨1/8, 1/8, 1/8⟩ Lobe.diffuseReflection).pdf
      = (ScatterResult.mk ⟨0, 0, 1⟩ (1/6) ⟨1/8, 1/8, 1/8⟩ Lobe.diffuseReflection).throughput :=
  C3_plastic_diffuse_consistency ⟨2, ⟨0, 0, 0⟩, 1, 0, ⟨1, 1, 1⟩⟩ (fun _ _ => 1/2) id (1/3)
    (fun _ => ⟨0, 0, 1⟩) ⟨0, 0, 1⟩ true (1/2) (0, 0)
    (ScatterResult.mk ⟨0, 0, 1⟩ (1/6) ⟨1/8, 1/8, 1/8⟩ Lobe.diffuseReflection)
    (by norm_num)
    (by norm_num [PlasticBsdf.sample, specularProbability, Vec3q.smul, Vec3q.divV,
      Vec3q.scalarSub, Vec3q.maxC, cosineHemispherePdf, Vec3q.divC])
    rfl
    (by norm_num)
    (by norm_num)

/-- C9: sampleInboundDirection fails exactly when
`cosTheta = -(normal . d) <= 0`; on success it returns the unit direction
`d = (q - p)/|q - p|` with `pdf = |q - p|^2/(cosTheta * totalArea)`, and
inboundPdf computes `|p - hit.p|^2 / (-d . Ng * totalArea)`.  `sqrtQ` models
the external `std::sqrt` through the hypothesis that its square recovers the
squared distance. -/
theorem C9_inbound_sampling (sqrtQ : ℚ → ℚ) (warpIdx : ℚ → ℕ)
    (uniTri : ℚ × ℚ → Vec3q → Vec3q → Vec3q → Vec3q)
    (tfVerts : ℕ → Vec3q) (tri : ℕ → ℕ × ℕ × ℕ) (totalArea : ℚ)
    (p : Vec3q) (u1 : ℚ) (u2 : ℚ × ℚ) (infoP ng d0 : Vec3q)
    (hsq : sqrtQ ((sampledTriPoint uniTri tfVerts tri (warpIdx u1) u2).sub p).lengthSq *
             sqrtQ ((sampledTriPoint uniTri tfVerts tri (warpIdx u1) u2).sub p).lengthSq
           = ((sampledTriPoint uniTri tfVerts tri (warpIdx u1) u2).sub p).lengthSq)
    (hr : ((sampledTriPoint uniTri tfVerts tri (warpIdx u1) u2).sub p).lengthSq ≠ 0) :
    (TriangleMesh.sampleInboundDirection sqrtQ warpIdx uniTri tfVerts tri totalArea p u1 u2 = none
      ↔ -((sampledTriNormal sqrtQ tfVerts tri (warpIdx u1)).dot
            (((sampledTriPoint uniTri tfVerts tri (warpIdx u1) u2).sub p).divC
              (sqrtQ ((sampledTriPoint uniTri tfVerts tri (warpIdx u1) u2).sub p).lengthSq))) ≤ 0) ∧
    (∀ s, TriangleMesh.sampleInboundDirection sqrtQ warpIdx uniTri tfVerts tri totalArea p u1 u2
        = some s →
      s.d = ((sampledTriPoint uniTri tfVerts tri (warpIdx u1) u2).sub p).divC
              (sqrtQ ((sampledTriPoint uniTri tfVerts tri (warpIdx u1) u2).sub p).lengthSq) ∧
      s.d.lengthSq = 1 ∧
      s.pdf = ((sampledTriPoint uniTri tfVerts tri (warpIdx u1) u2).sub p).lengthSq /
        (-((sampledTriNormal sqrtQ tfVerts tri (warpIdx u1)).dot s.d) * totalArea)) ∧
    TriangleMesh.inboundPdf totalArea infoP ng p d0
      = (p.sub infoP).lengthSq / (-(d0.dot ng) * totalArea) := by
  refine ⟨?_, ?_, rfl⟩
  · simp only [TriangleMesh.sampleInboundDirection]
    split_ifs with h
    · simp [h]
    · simp [h]
  · intro s hs
    simp only [TriangleMesh.sampleInboundDirection] at hs
    split_ifs at hs with h
    rw [Option.some.injEq] at hs
    subst hs
    refine ⟨rfl, ?_, rfl⟩
    have hsqne : sqrtQ ((sampledTriPoint uniTri tfVerts tri (warpIdx u1) u2).sub p).lengthSq ≠ 0 := by
      intro h0
      rw [h0, mul_zero] at hsq
      exact hr hsq.symm
    simp only [Vec3q.divC, Vec3q.lengthSq, Vec3q.dot]
    rw [div_mul_div_comm, div_mul_div_comm, div_mul_div_comm]
    rw [div_add_div_same, div_add_div_same]
    rw [div_eq_one_iff_eq (by
      intro hz
      exact hsqne (by
        rcases mul_eq_zero.mp hz with h1 | h1 <;> exact h1))]
    unfold Vec3q.lengthSq Vec3q.dot at hsq
    linarith [hsq]
  
/-- C9 witness: a concrete unit triangle sampled from `p = (0,0,1)`; the
returned direction is `(0,0,-1)` with pdf 2, and it has unit squared length. -/
theorem C9_witness :
    TriangleMesh.sampleInboundDirection id (fun _ => 0) (fun _ _ _ _ => ⟨0, 0, 0⟩)
        (fun n => if n = 1 then ⟨1, 0, 0⟩ else if n = 2 then ⟨0, 1, 0⟩ else ⟨0, 0, 0⟩)
        (fun _ => (0, 1, 2)) (1/2) ⟨0, 0, 1⟩ 0 (0, 0)
      = some ⟨1, ⟨0, 0, -1⟩, 2⟩ ∧
    (InboundSample.mk 1 ⟨0, 0, -1⟩ 2).d.lengthSq = 1 := by
  have hsample : TriangleMesh.sampleInboundDirection id (fun _ => 0) (fun _ _ _ _ => ⟨0, 0, 0⟩)
      (fun n => if n = 1 then ⟨1, 0, 0⟩ else if n = 2 then ⟨0, 1, 0⟩ else ⟨0, 0, 0⟩)
      (fun _ => (0, 1, 2)) (1/2) ⟨0, 0, 1⟩ 0 (0, 0)
      = some ⟨1, ⟨0, 0, -1⟩, 2⟩ := by
    norm_num [TriangleMesh.sampleInboundDirection, sampledTriPoint, sampledTriNormal,
      vnormalize, Vec3q.sub, Vec3q.cross, Vec3q.lengthSq, Vec3q.dot, Vec3q.divC]
  refine ⟨hsample, ?_⟩
  exact ((C9_inbound_sampling id (fun _ => 0) (fun _ _ _ _ => ⟨0, 0, 0⟩)
      (fun n => if n = 1 then ⟨1, 0, 0⟩ else if n = 2 then ⟨0, 1, 0⟩ else ⟨0, 0, 0⟩)
      (fun _ => (0, 1, 2)) (1/2) ⟨0, 0, 1⟩ 0 (0, 0) ⟨0, 0, 0⟩ ⟨0, 0, 1⟩ ⟨0, 0, -1⟩
      (by norm_num [sampledTriPoint, Vec3q.sub, Vec3q.lengthSq, Vec3q.dot])
      (by norm_num [sampledTriPoint, Vec3q.sub, Vec3q.lengthSq, Vec3q.dot])).2.1
    ⟨1, ⟨0, 0, -1⟩, 2⟩ hsample).2.1

/-- Helper: C++ truncated remainder by a positive modulus exceeds its negation. -/
theorem tmodLowerBound (a : ℤ) (n : ℕ) (hn : 0 < n) : -(n : ℤ) < Int.tmod a n := by
  rcases a with m | m
  · have h0 : (0 : ℤ) ≤ Int.tmod (Int.ofNat m) n := Int.tmod_nonneg _ (Int.ofNat_nonneg m)
    omega
  · have h3 : Int.tmod (Int.negSucc m) ((n : ℕ) : ℤ) = -(((m + 1) % n : ℕ) : ℤ) := rfl
    have h2 : (m + 1) % n < n := Nat.mod_lt _ hn
    rw [h3]
    omega

/-- Helper: truncated and Euclidean remainders agree modulo the divisor. -/
theorem tmodEmodCongr (a nq : ℤ) : Int.tmod a nq % nq = a % nq := by
  conv_rhs => rw [← Int.tdiv_add_tmod a nq]
  rw [add_comm, Int.add_mul_emod_self_left]

/-- Helper: the double-remainder wrap equals the Euclidean remainder. -/
theorem wrapCoord_eq_emod (i : ℤ) (n : ℕ) (hn : 0 < n) : wrapCoord i n = i % (n : ℤ) := by
  unfold wrapCoord cppMod
  have hnz : (0 : ℤ) < (n : ℤ) := by exact_mod_cast hn
  have hlow : -(n : ℤ) < Int.tmod i n := tmodLowerBound i n hn
  rw [Int.tmod_eq_emod (by omega) (le_of_lt hnz), Int.add_emod_self, tmodEmodCongr]

/-- Helper: wrapped coordinates are nonnegative. -/
theorem wrapCoord_nonneg (i : ℤ) (n : ℕ) (hn : 0 < n) : 0 ≤ wrapCoord i n := by
  rw [wrapCoord_eq_emod i n hn]
  exact Int.emod_nonneg _ (by exact_mod_cast hn.ne')

/-- Helper: wrapped coordinates are below the modulus. -/
theorem wrapCoord_lt (i : ℤ) (n : ℕ) (hn : 0 < n) : wrapCoord i n < (n : ℤ) := by
  rw [wrapCoord_eq_emod i n hn]
  exact Int.emod_lt_of_pos _ (by exact_mod_cast hn)

/-- Helper: wrapping commutes with successor away from the seam. -/
theorem wrapCoord_succ (i : ℤ) (n : ℕ) (hn : 2 ≤ n)
    (h : wrapCoord i n + 1 < (n : ℤ)) : wrapCoord (i + 1) n = wrapCoord i n + 1 := by
  have hn1 : 0 < n := by omega
  have h0 := wrapCoord_nonneg i n hn1
  rw [wrapCoord_eq_emod _ n hn1] at h h0 ⊢
  rw [wrapCoord_eq_emod _ n hn1]
  rw [Int.add_emod]
  have h1 : (1 : ℤ) % n = 1 := by
    rw [Int.emod_eq_of_lt (by norm_num) (by exact_mod_cast hn)]
  rw [h1, Int.emod_eq_of_lt (by omega) (by omega)]

/-- C8 (amended): with the clamp flag unset, texel coordinates `u*W` and
`(1-v)*H` are wrapped modulo the image dimensions (also for negative integer
parts, through the double-remainder wrap); the nearest-texel path agrees with
the claimed behaviour for every uv, and the bilinear path agrees with the
interpolation of the four surrounding texels whenever the wrapped cell is
interior (`iu <= W-2`, `iv <= H-2`); in the last row/column the code instead
clamps to `W-2`/`H-2`. -/
theorem C8_lookup_interior (w h : ℕ) (texel : ℤ → ℤ → Vec3q) (uv : ℚ × ℚ)
    (hw : 2 ≤ w) (hh : 2 ≤ h) :
    (bitmapLookup w h texel false false uv = bitmapLookupClaimed w h texel false uv) ∧
    (wrapCoord (ratTrunc (uv.1 * (w : ℚ))) w ≤ (w : ℤ) - 2 →
     wrapCoord (ratTrunc ((1 - uv.2) * (h : ℚ))) h ≤ (h : ℤ) - 2 →
     bitmapLookup w h texel true false uv = bitmapLookupClaimed w h texel true uv) := by
  have hw1 : 0 < w := by omega
  have hh1 : 0 < h := by omega
  have hu0 := wrapCoord_nonneg (ratTrunc (uv.1 * (w : ℚ))) w hw1
  have hu1 := wrapCoord_lt (ratTrunc (uv.1 * (w : ℚ))) w hw1
  have hv0 := wrapCoord_nonneg (ratTrunc ((1 - uv.2) * (h : ℚ))) h hh1
  have hv1 := wrapCoord_lt (ratTrunc ((1 - uv.2) * (h : ℚ))) h hh1
  constructor
  · simp only [bitmapLookup, bitmapLookupClaimed]
    norm_num
    congr 1 <;> (unfold cppClamp; omega)
  · intro hcu hcv
    simp only [bitmapLookup, bitmapLookupClaimed]
    norm_num
    rw [wrapCoord_succ _ w hw (by omega), wrapCoord_succ _ h hh (by omega)]
    have e1 : cppClamp (wrapCoord (ratTrunc (uv.1 * (w : ℚ))) w) 0 ((w : ℤ) - 2)
        = wrapCoord (ratTrunc (uv.1 * (w : ℚ))) w := by
      unfold cppClamp
      omega
    have e2 : cppClamp (wrapCoord (ratTrunc ((1 - uv.2) * (h : ℚ))) h) 0 ((h : ℤ) - 2)
        = wrapCoord (ratTrunc ((1 - uv.2) * (h : ℚ))) h := by
      unfold cppClamp
      omega
    rw [e1, e2]

/-- C8 counterexample: a 2-wide bitmap sampled in its last column with the
linear flag set: the code clamps the wrapped coordinate 1 down to 0 and
interpolates texels 0 and 1 (giving 1/4), while the claimed interpolation of
the four surrounding texels wraps to texels 1 and 0 (giving 3/4). -/
theorem C8_counterexample :
    bitmapLookup 2 2 (fun x _ => Vec3q.const (if x = 0 then 0 else 1)) true false ((5 : ℚ)/8, 1)
      ≠ bitmapLookupClaimed 2 2 (fun x _ => Vec3q.const (if x = 0 then 0 else 1)) true
          ((5 : ℚ)/8, 1) := by
  norm_num [bitmapLookup, bitmapLookupClaimed, ratTrunc, wrapCoord, cppMod, cppClamp,
    texLerp, Vec3q.smul, Vec3q.add, Vec3q.const, Vec3q.ext_iff]
  have ht : (Int.tmod (Int.tmod 1 2 + 2) 2 : ℤ) = 1 := by decide
  rw [ht]
  norm_num

/-- C8 witness: at an interior cell the code lookup equals the claimed
bilinear interpolation of the four surrounding texels. -/
theorem C8_witness :
    wrapCoord (ratTrunc ((1 : ℚ)/8 * ((2 : ℕ) : ℚ))) 2 ≤ (2 : ℤ) - 2 ∧
    bitmapLookup 2 2 (fun x _ => Vec3q.const (if x = 0 then 5 else 7)) true false ((1 : ℚ)/8, 3/4)
      = bitmapLookupClaimed 2 2 (fun x _ => Vec3q.const (if x = 0 then 5 else 7)) true
          ((1 : ℚ)/8, 3/4) := by
  have h1 : wrapCoord (ratTrunc ((1 : ℚ)/8 * ((2 : ℕ) : ℚ))) 2 ≤ (2 : ℤ) - 2 := by
    have e : ratTrunc ((1 : ℚ)/8 * ((2 : ℕ) : ℚ)) = 0 := by norm_num [ratTrunc]
    rw [e]
    decide
  have h2 : wrapCoord (ratTrunc ((1 - ((1 : ℚ)/8, (3 : ℚ)/4).2) * ((2 : ℕ) : ℚ))) 2
      ≤ (2 : ℤ) - 2 := by
    have e : ratTrunc ((1 - ((1 : ℚ)/8, (3 : ℚ)/4).2) * ((2 : ℕ) : ℚ)) = 0 := by
      norm_num [ratTrunc]
    rw [e]
    decide
  exact ⟨h1, (C8_lookup_interior 2 2 (fun x _ => Vec3q.const (if x = 0 then 5 else 7))
    ((1 : ℚ)/8, 3/4) (by norm_num) (by norm_num)).2 h1 h2⟩

/-- Helper: writing a max into a cell never decreases any value. -/
theorem update_max_le (ws : ℕ → ℚ) (idx k j : ℕ) :
    ws j ≤ Function.update ws idx (max (ws idx) (ws k)) j := by
  rcases eq_or_ne j idx with rfl | hne
  · rw [Function.update_same]
    exact le_max_left _ _
  · rw [Function.update_noteq hne]

/-- Helper: one forward dilation step is pointwise nondecreasing. -/
theorem dilateStepF_le (varW varH : ℕ) (ws : ℕ → ℚ) (xy : ℕ × ℕ) (j : ℕ) :
    ws j ≤ dilateStepF varW varH ws xy j := by
  simp only [dilateStepF]
  split_ifs with h1 h2 h3
  · exact le_trans (update_max_le ws _ _ j) (update_max_le _ _ _ j)
  · exact update_max_le ws _ _ j
  · exact update_max_le ws _ _ j
  · exact le_refl _

/-- Helper: one backward dilation step is pointwise nondecreasing. -/
theorem dilateStepB_le (varW : ℕ) (ws : ℕ → ℚ) (xy : ℕ × ℕ) (j : ℕ) :
    ws j ≤ dilateStepB varW ws xy j := by
  simp only [dilateStepB]
  split_ifs with h1 h2 h3
  · exact le_trans (update_max_le ws _ _ j) (update_max_le _ _ _ j)
  · exact update_max_le ws _ _ j
  · exact update_max_le ws _ _ j
  · exact le_refl _

/-- Helper: folding pointwise-nondecreasing steps is pointwise nondecreasing. -/
theorem foldl_step_le (step : (ℕ → ℚ) → (ℕ × ℕ) → (ℕ → ℚ))
    (hstep : ∀ ws xy j, ws j ≤ step ws xy j) :
    ∀ (l : List (ℕ × ℕ)) (ws : ℕ → ℚ) (j : ℕ), ws j ≤ (l.foldl step ws) j := by
  intro l
  induction l with
  | nil => intro ws j; exact le_refl _
  | cons a t ih =>
    intro ws j
    exact le_trans (hstep ws a j) (ih (step ws a) j)

/-- Helper: the forward step at a cell absorbs its right neighbor. -/
theorem dilateStepF_right (varW varH : ℕ) (ws : ℕ → ℚ) (x y : ℕ) (hx : x < varW - 1) :
    ws (x + y * varW + 1) ≤ dilateStepF varW varH ws (x, y) (x + y * varW) := by
  simp only [dilateStepF]
  rw [if_pos hx]
  have hne : x + y * varW + 1 ≠ x + y * varW := by omega
  set ws1 := if y < varH - 1
    then Function.update ws (x + y * varW)
      (max (ws (x + y * varW)) (ws (x + y * varW + varW)))
    else ws with hws1
  have hkeep : ws1 (x + y * varW + 1) = ws (x + y * varW + 1) := by
    rw [hws1]
    split_ifs with h
    · rw [Function.update_noteq hne]
    · rfl
  rw [Function.update_same]
  rw [← hkeep]
  exact le_max_right _ _

/-- Helper: the forward step at a cell absorbs the neighbor below. -/
theorem dilateStepF_down (varW varH : ℕ) (ws : ℕ → ℚ) (x y : ℕ) (hy : y < varH - 1) :
    ws (x + y * varW + varW) ≤ dilateStepF varW varH ws (x, y) (x + y * varW) := by
  simp only [dilateStepF]
  rw [if_pos hy]
  set ws1 := Function.update ws (x + y * varW)
    (max (ws (x + y * varW)) (ws (x + y * varW + varW))) with hws1
  have hbase : ws (x + y * varW + varW) ≤ ws1 (x + y * varW) := by
    rw [hws1, Function.update_same]
    exact le_max_right _ _
  split_ifs with h
  · exact le_trans hbase (update_max_le ws1 _ _ _)
  · exact hbase

/-- Helper: the backward step at a cell absorbs its left neighbor. -/
theorem dilateStepB_left (varW : ℕ) (ws : ℕ → ℚ) (x y : ℕ) (hx : 0 < x) :
    ws (x + y * varW - 1) ≤ dilateStepB varW ws (x, y) (x + y * varW) := by
  simp only [dilateStepB]
  rw [if_pos hx]
  have hne : x + y * varW - 1 ≠ x + y * varW := by omega
  set ws1 := if 0 < y
    then Function.update ws (x + y * varW)
      (max (ws (x + y * varW)) (ws (x + y * varW - varW)))
    else ws with hws1
  have hkeep : ws1 (x + y * varW - 1) = ws (x + y * varW - 1) := by
    rw [hws1]
    split_ifs with h
    · rw [Function.update_noteq hne]
    · rfl
  rw [Function.update_same]
  rw [← hkeep]
  exact le_max_right _ _

/-- Helper: the backward step at a cell absorbs the neighbor above. -/
theorem dilateStepB_up (varW : ℕ) (ws : ℕ → ℚ) (x y : ℕ) (hy : 0 < y) :
    ws (x + y * varW - varW) ≤ dilateStepB varW ws (x, y) (x + y * varW) := by
  simp only [dilateStepB]
  rw [if_pos hy]
  set ws1 := Function.update ws (x + y * varW)
    (max (ws (x + y * varW)) (ws (x + y * varW - varW))) with hws1
  have hbase : ws (x + y * varW - varW) ≤ ws1 (x + y * varW) := by
    rw [hws1, Function.update_same]
    exact le_max_right _ _
  split_ifs with h
  · exact le_trans hbase (update_max_le ws1 _ _ _)
  · exact hbase

/-- Helper: membership in the row-major iteration order. -/
theorem mem_gridIndices (varW varH x y : ℕ) :
    (x, y) ∈ gridIndices varW varH ↔ x < varW ∧ y < varH := by
  simp only [gridIndices, List.mem_flatMap, List.mem_map, List.mem_range]
  constructor
  · rintro ⟨a, ha, b, hb, heq⟩
    rw [Prod.mk.injEq] at heq
    obtain ⟨rfl, rfl⟩ := heq
    exact ⟨hb, ha⟩
  · rintro ⟨hxlt, hylt⟩
    exact ⟨y, hylt, x, hxlt, rfl⟩

/-- C7: dilateAdaptiveWeights (a forward then a backward pass, each taking
4-neighbor maxima) is pointwise nondecreasing, and every cell of the dilated
grid dominates the pre-dilation value of each of its existing 4-neighbors
(flat indices `idx = x + y*varianceW`). -/
theorem C7_dilation_nondecreasing (varW varH : ℕ) (ws : ℕ → ℚ) (x y : ℕ)
    (hx : x < varW) (hy : y < varH) :
    ws (x + y * varW) ≤ dilateAdaptiveWeights varW varH ws (x + y * varW) ∧
    (x + 1 < varW →
      ws (x + y * varW + 1) ≤ dilateAdaptiveWeights varW varH ws (x + y * varW)) ∧
    (y + 1 < varH →
      ws (x + y * varW + varW) ≤ dilateAdaptiveWeights varW varH ws (x + y * varW)) ∧
    (0 < x → ws (x + y * varW - 1) ≤ dilateAdaptiveWeights varW varH ws (x + y * varW)) ∧
    (0 < y → ws (x + y * varW - varW) ≤ dilateAdaptiveWeights varW varH ws (x + y * varW)) := by
  have hmem : (x, y) ∈ gridIndices varW varH := (mem_gridIndices varW varH x y).mpr ⟨hx, hy⟩
  have hmemrev : (x, y) ∈ (gridIndices varW varH).reverse := List.mem_reverse.mpr hmem
  obtain ⟨s, t, hsplit⟩ := List.append_of_mem hmem
  obtain ⟨sr, tr, hsplitr⟩ := List.append_of_mem hmemrev
  have hdef : dilateAdaptiveWeights varW varH ws
      = ((gridIndices varW varH).reverse).foldl (dilateStepB varW)
          ((gridIndices varW varH).foldl (dilateStepF varW varH) ws) := rfl
  have hF : (gridIndices varW varH).foldl (dilateStepF varW varH) ws
      = t.foldl (dilateStepF varW varH)
          (dilateStepF varW varH (s.foldl (dilateStepF varW varH) ws) (x, y)) := by
    rw [hsplit, List.foldl_append, List.foldl_cons]
  have hB : ∀ g : ℕ → ℚ, ((gridIndices varW varH).reverse).foldl (dilateStepB varW) g
      = tr.foldl (dilateStepB varW)
          (dilateStepB varW (sr.foldl (dilateStepB varW) g) (x, y)) := by
    intro g
    rw [hsplitr, List.foldl_append, List.foldl_cons]
  have hmonoF := foldl_step_le (dilateStepF varW varH) (dilateStepF_le varW varH)
  have hmonoB := foldl_step_le (dilateStepB varW) (dilateStepB_le varW)
  have hFmono : ∀ j, ws j ≤ (gridIndices varW varH).foldl (dilateStepF varW varH) ws j :=
    fun j => hmonoF (gridIndices varW varH) ws j
  have hfinalF : ∀ j, (gridIndices varW varH).foldl (dilateStepF varW varH) ws j
      ≤ dilateAdaptiveWeights varW varH ws j := by
    intro j
    rw [hdef]
    exact hmonoB _ _ j
  refine ⟨le_trans (hFmono _) (hfinalF _), ?_, ?_, ?_, ?_⟩
  · intro hx1
    have h1 : ws (x + y * varW + 1) ≤ s.foldl (dilateStepF varW varH) ws (x + y * varW + 1) :=
      hmonoF s ws _
    have h2 := dilateStepF_right varW varH (s.foldl (dilateStepF varW varH) ws) x y (by omega)
    have h3 : dilateStepF varW varH (s.foldl (dilateStepF varW varH) ws) (x, y) (x + y * varW)
        ≤ (gridIndices varW varH).foldl (dilateStepF varW varH) ws (x + y * varW) := by
      rw [hF]
      exact hmonoF t _ _
    exact le_trans (le_trans (le_trans h1 h2) h3) (hfinalF _)
  · intro hy1
    have h1 : ws (x + y * varW + varW) ≤ s.foldl (dilateStepF varW varH) ws (x + y * varW + varW) :=
      hmonoF s ws _
    have h2 := dilateStepF_down varW varH (s.foldl (dilateStepF varW varH) ws) x y (by omega)
    have h3 : dilateStepF varW varH (s.foldl (dilateStepF varW varH) ws) (x, y) (x + y * varW)
        ≤ (gridIndices varW varH).foldl (dilateStepF varW varH) ws (x + y * varW) := by
      rw [hF]
      exact hmonoF t _ _
    exact le_trans (le_trans (le_trans h1 h2) h3) (hfinalF _)
  · intro hx0
    have h1 : ws (x + y * varW - 1)
        ≤ (gridIndices varW varH).foldl (dilateStepF varW varH) ws (x + y * varW - 1) :=
      hFmono _
    have h2 : (gridIndices varW varH).foldl (dilateStepF varW varH) ws (x + y * varW - 1)
        ≤ sr.foldl (dilateStepB varW)
            ((gridIndices varW varH).foldl (dilateStepF varW varH) ws) (x + y * varW - 1) :=
      hmonoB sr _ _
    have h3 := dilateStepB_left varW
      (sr.foldl (dilateStepB varW) ((gridIndices varW varH).foldl (dilateStepF varW varH) ws))
      x y hx0
    have h4 : dilateStepB varW
        (sr.foldl (dilateStepB varW) ((gridIndices varW varH).foldl (dilateStepF varW varH) ws))
        (x, y) (x + y * varW)
        ≤ dilateAdaptiveWeights varW varH ws (x + y * varW) := by
      rw [hdef, hB]
      exact hmonoB tr _ _
    exact le_trans (le_trans (le_trans h1 h2) h3) h4
  · intro hy0
    have h1 : ws (x + y * varW - varW)
        ≤ (gridIndices varW varH).foldl (dilateStepF varW varH) ws (x + y * varW - varW) :=
      hFmono _
    have h2 : (gridIndices varW varH).foldl (dilateStepF varW varH) ws (x + y * varW - varW)
        ≤ sr.foldl (dilateStepB varW)
            ((gridIndices varW varH).foldl (dilateStepF varW varH) ws) (x + y * varW - varW) :=
      hmonoB sr _ _
    have h3 := dilateStepB_up varW
      (sr.foldl (dilateStepB varW) ((gridIndices varW varH).foldl (dilateStepF varW varH) ws))
      x y hy0
    have h4 : dilateStepB varW
        (sr.foldl (dilateStepB varW) ((gridIndices varW varH).foldl (dilateStepF varW varH) ws))
        (x, y) (x + y * varW)
        ≤ dilateAdaptiveWeights varW varH ws (x + y * varW) := by
      rw [hdef, hB]
      exact hmonoB tr _ _
    exact le_trans (le_trans (le_trans h1 h2) h3) h4

/-- C7 witness: a concrete 2x2 grid with a single hot cell; the dilated value
at cell 0 dominates its original value. -/
theorem C7_witness :
    (0 : ℕ) + 1 < 2 ∧
    (fun i => if i = 3 then (5 : ℚ) else 0) (0 + 0 * 2)
      ≤ dilateAdaptiveWeights 2 2 (fun i => if i = 3 then (5 : ℚ) else 0) (0 + 0 * 2) :=
  ⟨by norm_num,
    (C7_dilation_nondecreasing 2 2 (fun i => if i = 3 then (5 : ℚ) else 0) 0 0
      (by norm_num) (by norm_num)).1⟩

/-- Helper: closed form of errorPercentile95 over the raw error list. -/
theorem errorPercentile95_def (recs : List SampleRecord) :
    errorPercentile95 recs
      = (if ((recs.map (fun r => r.errorEstimate)).filter (fun e => decide (0 < e))).isEmpty
          then (0 : ℚ)
          else (((recs.map (fun r => r.errorEstimate)).filter
              (fun e => decide (0 < e))).mergeSort (fun a b => a ≤ b)).getD
            ((((recs.map (fun r => r.errorEstimate)).filter
              (fun e => decide (0 < e))).length) * 95 / 100) 0,
        recs.map (fun r => { r with adaptiveWeight := r.errorEstimate })) := by
  simp only [errorPercentile95]
  have hmm : (recs.map (fun r => { r with adaptiveWeight := r.errorEstimate })).map
      (fun r => r.adaptiveWeight) = recs.map (fun r => r.errorEstimate) := by
    rw [List.map_map]
    rfl
  rw [hmm]
  split_ifs <;> rfl

/-- Helper: with no positive errors the percentile is zero. -/
theorem percentileErrors_nil (recs : List SampleRecord)
    (h : (recs.map (fun r => r.errorEstimate)).filter (fun e => decide (0 < e)) = []) :
    (errorPercentile95 recs).1 = 0 := by
  rw [errorPercentile95_def]
  simp [h]

/-- Helper: with positive errors present, the percentile is one of them. -/
theorem percentileErrors_mem (recs : List SampleRecord)
    (h : (recs.map (fun r => r.errorEstimate)).filter (fun e => decide (0 < e)) ≠ []) :
    (errorPercentile95 recs).1
      ∈ (recs.map (fun r => r.errorEstimate)).filter (fun e => decide (0 < e)) := by
  rw [errorPercentile95_def]
  have hone : ¬ ((recs.map (fun r => r.errorEstimate)).filter
      (fun e => decide (0 < e))).isEmpty = true := by
    rw [List.isEmpty_iff]
    exact h
  simp only [hone, if_false, Bool.false_eq_true]
  set E := (recs.map (fun r => r.errorEstimate)).filter (fun e => decide (0 < e)) with hE
  have hlen : (E.mergeSort (fun a b => a ≤ b)).length = E.length := List.length_mergeSort E
  have hpos : 0 < E.length := List.length_pos.mpr h
  have hidx : E.length * 95 / 100 < E.length := by omega
  rw [List.getD_eq_getElem _ _ (by rw [hlen]; exact hidx)]
  exact List.mem_mergeSort.mp (List.getElem_mem _)

/-- Helper: a nonzero percentile is positive and comes from a positive cell error. -/
theorem errorPercentile95_pos (recs : List SampleRecord)
    (h : (errorPercentile95 recs).1 ≠ 0) :
    0 < (errorPercentile95 recs).1 ∧ ∃ r ∈ recs, 0 < r.errorEstimate := by
  have hfil : (recs.map (fun r => r.errorEstimate)).filter (fun e => decide (0 < e)) ≠ [] := by
    intro hnil
    exact h (percentileErrors_nil recs hnil)
  have hmem := percentileErrors_mem recs hfil
  rw [List.mem_filter] at hmem
  obtain ⟨hmap, hdec⟩ := hmem
  have hpos : 0 < (errorPercentile95 recs).1 := by
    simpa using hdec
  refine ⟨hpos, ?_⟩
  obtain ⟨r, hr, hre⟩ := List.mem_map.mp hmap
  exact ⟨r, hr, by rw [hre]; exact hpos⟩

/-- Helper: for nonnegative errors, the percentile vanishes iff every error does. -/
theorem errorPercentile95_eq_zero_iff (recs : List SampleRecord)
    (hpos : ∀ r ∈ recs, 0 ≤ r.errorEstimate) :
    (errorPercentile95 recs).1 = 0 ↔ ∀ r ∈ recs, r.errorEstimate = 0 := by
  constructor
  · intro h0
    by_cases hfil : (recs.map (fun r => r.errorEstimate)).filter (fun e => decide (0 < e)) = []
    · rw [List.filter_eq_nil_iff] at hfil
      intro r hr
      have := hfil r.errorEstimate (List.mem_map.mpr ⟨r, hr, rfl⟩)
      have hle : ¬ (0 < r.errorEstimate) := by simpa using this
      exact le_antisymm (not_lt.mp hle) (hpos r hr)
    · have hmem := percentileErrors_mem recs hfil
      rw [List.mem_filter] at hmem
      have : 0 < (errorPercentile95 recs).1 := by simpa using hmem.2
      rw [h0] at this
      exact absurd this (lt_irrefl 0)
  · intro hall
    apply percentileErrors_nil
    rw [List.filter_eq_nil_iff]
    intro a ha
    obtain ⟨r, hr, rfl⟩ := List.mem_map.mp ha
    rw [hall r hr]
    simp

/-- C2: when adaptive sampling is disabled or `sppFrom < AdaptiveThreshold`,
generateWork sets every record's nextSampleCount to `sppCount = sppTo - sppFrom`
and returns true; otherwise it returns false exactly when the 95th percentile
of the error estimates is zero, i.e. (for the nonnegative errors produced by
SampleRecord::errorEstimate) when every cell's error estimate is zero. -/
theorem C2_generateWork_modes (cfg : RendererCfg) (draws : ℕ → ℚ)
    (sppFrom sppTo : ℕ) (recs : List SampleRecord)
    (herr : ∀ r ∈ recs, 0 ≤ r.errorEstimate) :
    (¬(cfg.enableAdaptive = true ∧ cfg.threshold ≤ sppFrom) →
      (generateWork cfg draws sppFrom sppTo recs).1 = true ∧
      ∀ r ∈ (generateWork cfg draws sppFrom sppTo recs).2,
        r.nextSampleCount = (sppTo : ℤ) - (sppFrom : ℤ)) ∧
    ((cfg.enableAdaptive = true ∧ cfg.threshold ≤ sppFrom) →
      ((generateWork cfg draws sppFrom sppTo recs).1 = false ↔
        ∀ r ∈ recs, r.errorEstimate = 0)) := by
  have herr0 : ∀ r ∈ recs.map
      (fun r => { r with sampleIndex := r.sampleIndex + r.nextSampleCount }),
      0 ≤ r.errorEstimate := by
    intro r hr
    obtain ⟨r0, hr0, rfl⟩ := List.mem_map.mp hr
    exact herr r0 hr0
  constructor
  · intro hcond
    simp only [generateWork]
    rw [if_neg hcond]
    refine ⟨rfl, ?_⟩
    intro r hr
    simp only [] at hr
    rw [List.mem_map] at hr
    obtain ⟨r0, _, rfl⟩ := hr
    rfl
  · intro hcond
    simp only [generateWork]
    rw [if_pos hcond]
    by_cases h0 : (errorPercentile95
        (recs.map (fun r => { r with sampleIndex := r.sampleIndex + r.nextSampleCount }))).1 = 0
    · rw [if_pos h0]
      simp only []
      constructor
      · intro _
        have hall0 := (errorPercentile95_eq_zero_iff _ herr0).mp h0
        intro r hr
        have hthis := hall0 { r with sampleIndex := r.sampleIndex + r.nextSampleCount }
          (List.mem_map.mpr ⟨r, hr, rfl⟩)
        exact hthis
      · intro _
        trivial
    · rw [if_neg h0]
      simp only []
      constructor
      · intro habs
        exact absurd habs (by simp)
      · intro hall
        exfalso
        exact h0 ((errorPercentile95_eq_zero_iff _ herr0).mpr (by
          intro r hr
          obtain ⟨r0, hr0, rfl⟩ := List.mem_map.mp hr
          exact hall r0 hr0))

/-- C2 witness: a single converged cell (zero error) past the warm-up makes
generateWork return false. -/
theorem C2_witness :
    (∀ r ∈ ([⟨0, 0, 0, 0⟩] : List SampleRecord), 0 ≤ r.errorEstimate) ∧
    ((generateWork ⟨4, 4, 4, 16, true⟩ (fun _ => 0) 16 32 [⟨0, 0, 0, 0⟩]).1 = false ↔
      ∀ r ∈ ([⟨0, 0, 0, 0⟩] : List SampleRecord), r.errorEstimate = 0) := by
  constructor
  · intro r hr
    rw [List.mem_singleton] at hr
    subst hr
    norm_num
  · exact (C2_generateWork_modes ⟨4, 4, 4, 16, true⟩ (fun _ => 0) 16 32 [⟨0, 0, 0, 0⟩]
      (by
        intro r hr
        rw [List.mem_singleton] at hr
        subst hr
        norm_num)).2 ⟨rfl, by norm_num⟩

/-- Helper: with nonnegative weights and a nonnegative factor, every record scheduled by the distribution walk gets at least one sample. -/
theorem distributeGo_ge_one (factor : ℚ) (draws : ℕ → ℚ) :
    ∀ (rs : List SampleRecord) (i : ℕ) (P : ℚ),
      (∀ r ∈ rs, 0 ≤ r.adaptiveWeight) → 0 ≤ factor →
      ∀ r ∈ distributeGo factor draws i P rs, 1 ≤ r.nextSampleCount := by
  intro rs
  induction rs with
  | nil =>
    intro i P _ _ r hr
    simp [distributeGo] at hr
  | cons a t ih =>
    intro i P hw hf r hr
    simp only [distributeGo] at hr
    have hfrac : 0 ≤ a.adaptiveWeight * factor := mul_nonneg (hw a (by simp)) hf
    have htr : 0 ≤ ratTrunc (a.adaptiveWeight * factor) := by
      unfold ratTrunc
      rw [if_pos hfrac]
      exact Int.floor_nonneg.mpr hfrac
    have hwt : ∀ r ∈ t, 0 ≤ r.adaptiveWeight := fun r hrr => hw r (List.mem_cons_of_mem _ hrr)
    split_ifs at hr with hd
    · rcases List.mem_cons.mp hr with rfl | hmem
      · simp only []
        omega
      · exact ih _ _ hwt hf r hmem
    · rcases List.mem_cons.mp hr with rfl | hmem
      · simp only []
        omega
      · exact ih _ _ hwt hf r hmem

/-- Helper: the distribution walk preserves the fractional accumulator invariant `-1 < pixelPdf < 1` and its scheduled total telescopes against it. -/
theorem distributeGo_sum (factor : ℚ) (draws : ℕ → ℚ)
    (hd0 : ∀ j, 0 ≤ draws j) (hd1 : ∀ j, draws j < 1) :
    ∀ (rs : List SampleRecord) (i : ℕ) (P : ℚ), -1 < P → P < 1 →
      (∀ r ∈ rs, 0 ≤ r.adaptiveWeight) → 0 ≤ factor →
      ∃ Pf : ℚ, -1 < Pf ∧ Pf < 1 ∧
        ((((distributeGo factor draws i P rs).map (fun r => r.nextSampleCount)).sum : ℤ) : ℚ)
          = (rs.map (fun r => r.adaptiveWeight * factor)).sum + P - Pf + rs.length := by
  intro rs
  induction rs with
  | nil =>
    intro i P hP1 hP2 _ _
    refine ⟨P, hP1, hP2, ?_⟩
    simp [distributeGo]
  | cons a t ih =>
    intro i P hP1 hP2 hw hf
    have hfrac : 0 ≤ a.adaptiveWeight * factor := mul_nonneg (hw a (by simp)) hf
    have htr : ratTrunc (a.adaptiveWeight * factor) = ⌊a.adaptiveWeight * factor⌋ := by
      unfold ratTrunc
      rw [if_pos hfrac]
    have hfr0 : 0 ≤ a.adaptiveWeight * factor - (ratTrunc (a.adaptiveWeight * factor) : ℚ) := by
      rw [htr]
      have := Int.fract_nonneg (a.adaptiveWeight * factor)
      rwa [Int.fract] at this
    have hfr1 : a.adaptiveWeight * factor - (ratTrunc (a.adaptiveWeight * factor) : ℚ) < 1 := by
      rw [htr]
      have := Int.fract_lt_one (a.adaptiveWeight * factor)
      rwa [Int.fract] at this
    have hwt : ∀ r ∈ t, 0 ≤ r.adaptiveWeight := fun r hrr => hw r (List.mem_cons_of_mem _ hrr)
    simp only [distributeGo]
    split_ifs with hd
    · have hP1n : -1 < P + (a.adaptiveWeight * factor
          - (ratTrunc (a.adaptiveWeight * factor) : ℚ)) - 1 := by
        have := hd0 i
        linarith
      have hP2n : P + (a.adaptiveWeight * factor
          - (ratTrunc (a.adaptiveWeight * factor) : ℚ)) - 1 < 1 := by
        linarith
      obtain ⟨Pf, h1, h2, hsum⟩ := ih (i + 1)
        (P + (a.adaptiveWeight * factor - (ratTrunc (a.adaptiveWeight * factor) : ℚ)) - 1)
        hP1n hP2n hwt hf
      refine ⟨Pf, h1, h2, ?_⟩
      rw [List.map_cons, List.sum_cons, List.map_cons, List.sum_cons, List.length_cons]
      push_cast
      push_cast at hsum
      linarith
    · have hP1n : -1 < P + (a.adaptiveWeight * factor
          - (ratTrunc (a.adaptiveWeight * factor) : ℚ)) := by
        linarith
      have hP2n : P + (a.adaptiveWeight * factor
          - (ratTrunc (a.adaptiveWeight * factor) : ℚ)) < 1 := by
        have := hd1 i
        rw [not_lt] at hd
        linarith
      obtain ⟨Pf, h1, h2, hsum⟩ := ih (i + 1)
        (P + (a.adaptiveWeight * factor - (ratTrunc (a.adaptiveWeight * factor) : ℚ)))
        hP1n hP2n hwt hf
      refine ⟨Pf, h1, h2, ?_⟩
      rw [List.map_cons, List.sum_cons, List.map_cons, List.sum_cons, List.length_cons]
      push_cast
      push_cast at hsum
      linarith

/-- Helper: sum of a constant over a record list. -/
theorem sum_map_constZ (l : List SampleRecord) (c : ℤ) :
    (l.map (fun _ => c)).sum = (l.length : ℤ) * c := by
  induction l with
  | nil => simp
  | cons a t ih =>
    rw [List.map_cons, List.sum_cons, ih, List.length_cons]
    push_cast
    ring

/-- Helper: a sum of nonnegative terms with one positive term is positive. -/
theorem sum_range_pos (f : ℕ → ℚ) (n j : ℕ) (hj : j < n) (hnn : ∀ i, 0 ≤ f i)
    (hpos : 0 < f j) : 0 < ((List.range n).map f).sum := by
  have hmem : f j ∈ (List.range n).map f :=
    List.mem_map.mpr ⟨j, List.mem_range.mpr hj, rfl⟩
  obtain ⟨s, t, hst⟩ := List.append_of_mem hmem
  have hmemnn : ∀ x ∈ (List.range n).map f, 0 ≤ x := by
    intro x hx
    obtain ⟨i, _, rfl⟩ := List.mem_map.mp hx
    exact hnn i
  have hs : 0 ≤ s.sum := List.sum_nonneg (by
    intro x hx
    exact hmemnn x (by rw [hst]; exact List.mem_append_left _ hx))
  have ht : 0 ≤ t.sum := List.sum_nonneg (by
    intro x hx
    exact hmemnn x (by rw [hst]; exact List.mem_append_right _ (List.mem_cons_of_mem _ hx)))
  rw [hst, List.sum_append, List.sum_cons]
  linarith

/-- Helper: defaulted indexing preserves nonnegative weights. -/
theorem getD_weight_nonneg (l : List SampleRecord)
    (h : ∀ r ∈ l, 0 ≤ r.adaptiveWeight) (i : ℕ) :
    0 ≤ (l.getD i default).adaptiveWeight := by
  by_cases hi : i < l.length
  · rw [List.getD_eq_getElem _ _ hi]
    exact h _ (List.getElem_mem hi)
  · rw [List.getD_eq_default _ _ (not_lt.mp hi)]
    norm_num [default]

/-- Helper: dilation is pointwise nondecreasing. -/
theorem dilate_le_pointwise (varW varH : ℕ) (ws : ℕ → ℚ) (j : ℕ) :
    ws j ≤ dilateAdaptiveWeights varW varH ws j := by
  have h1 := foldl_step_le (dilateStepF varW varH) (dilateStepF_le varW varH)
    (gridIndices varW varH) ws j
  have h2 := foldl_step_le (dilateStepB varW) (dilateStepB_le varW)
    ((gridIndices varW varH).reverse)
    ((gridIndices varW varH).foldl (dilateStepF varW varH) ws) j
  exact le_trans h1 h2

/-- Helper: under exact rational arithmetic the stochastic rounding cancels:
the scheduled total of distributeAdaptiveSamples is exactly
`budgetPerTile + #records`. -/
theorem distributeAdaptiveSamples_sum (cfg : RendererCfg) (spp : ℤ) (draws : ℕ → ℚ)
    (recs : List SampleRecord)
    (hd0 : ∀ j, 0 ≤ draws j) (hd1 : ∀ j, draws j < 1)
    (hw : ∀ r ∈ recs, 0 ≤ r.adaptiveWeight)
    (hpos : 0 < (recs.map (fun r => r.adaptiveWeight)).sum)
    (hspp : 1 ≤ spp) :
    ((distributeAdaptiveSamples cfg spp draws recs).map (fun r => r.nextSampleCount)).sum
      = Int.tdiv ((spp - 1) * (cfg.w : ℤ) * (cfg.h : ℤ)) ((cfg.vts : ℤ) * (cfg.vts : ℤ))
        + (recs.length : ℤ) := by
  set W := (recs.map (fun r => r.adaptiveWeight)).sum with hWdef
  set B := Int.tdiv ((spp - 1) * (cfg.w : ℤ) * (cfg.h : ℤ)) ((cfg.vts : ℤ) * (cfg.vts : ℤ))
    with hBdef
  have hB : 0 ≤ B := Int.tdiv_nonneg
    (mul_nonneg (mul_nonneg (by omega) (by positivity)) (by positivity))
    (mul_nonneg (by positivity) (by positivity))
  have hfactor : 0 ≤ (B : ℚ) / W := div_nonneg (by exact_mod_cast hB) (le_of_lt hpos)
  obtain ⟨Pf, hPf1, hPf2, hsum⟩ := distributeGo_sum ((B : ℚ) / W) draws hd0 hd1 recs 0 0
    (by norm_num) (by norm_num) hw hfactor
  have hmap : (recs.map (fun r => r.adaptiveWeight * ((B : ℚ) / W))).sum = (B : ℚ) := by
    rw [List.sum_map_mul_right, ← hWdef]
    field_simp
  rw [hmap] at hsum
  have hgoal : ((distributeAdaptiveSamples cfg spp draws recs).map
      (fun r => r.nextSampleCount)).sum
      = ((distributeGo ((B : ℚ) / W) draws 0 0 recs).map (fun r => r.nextSampleCount)).sum := rfl
  rw [hgoal]
  set S := ((distributeGo ((B : ℚ) / W) draws 0 0 recs).map (fun r => r.nextSampleCount)).sum
    with hSdef
  have hk : ((S - B - (recs.length : ℤ) : ℤ) : ℚ) = -Pf := by
    push_cast
    linarith
  have hk1 : (-1 : ℚ) < ((S - B - (recs.length : ℤ) : ℤ) : ℚ) := by
    rw [hk]
    linarith
  have hk2 : ((S - B - (recs.length : ℤ) : ℤ) : ℚ) < 1 := by
    rw [hk]
    linarith
  have hki1 : (-1 : ℤ) < S - B - (recs.length : ℤ) := by exact_mod_cast hk1
  have hki2 : S - B - (recs.length : ℤ) < 1 := by exact_mod_cast hk2
  omega

/-- Helper: errorPercentile95 writes the error estimates into the adaptive weights. -/
theorem errorPercentile95_snd (recs : List SampleRecord) :
    (errorPercentile95 recs).2
      = recs.map (fun r => { r with adaptiveWeight := r.errorEstimate }) := by
  rw [errorPercentile95_def]

/-- Helper: every record distributed adaptively gets at least one sample. -/
theorem distributeAdaptiveSamples_ge_one (cfg : RendererCfg) (spp : ℤ) (draws : ℕ → ℚ)
    (recs : List SampleRecord)
    (hw : ∀ r ∈ recs, 0 ≤ r.adaptiveWeight) (hspp : 1 ≤ spp) :
    ∀ r ∈ distributeAdaptiveSamples cfg spp draws recs, 1 ≤ r.nextSampleCount := by
  have hB : 0 ≤ Int.tdiv ((spp - 1) * (cfg.w : ℤ) * (cfg.h : ℤ))
      ((cfg.vts : ℤ) * (cfg.vts : ℤ)) := Int.tdiv_nonneg
    (mul_nonneg (mul_nonneg (by omega) (by positivity)) (by positivity))
    (mul_nonneg (by positivity) (by positivity))
  have hW : 0 ≤ (recs.map (fun r => r.adaptiveWeight)).sum := List.sum_nonneg (by
    intro x hx
    obtain ⟨r, hr, rfl⟩ := List.mem_map.mp hx
    exact hw r hr)
  have hfactor : 0 ≤ ((Int.tdiv ((spp - 1) * (cfg.w : ℤ) * (cfg.h : ℤ))
      ((cfg.vts : ℤ) * (cfg.vts : ℤ)) : ℤ) : ℚ) / (recs.map (fun r => r.adaptiveWeight)).sum :=
    div_nonneg (by exact_mod_cast hB) hW
  exact distributeGo_ge_one _ draws recs 0 0 hw hfactor

/-- C5: whenever generateWork returns true with `sppTo > sppFrom`, every
record's nextSampleCount is at least 1 afterwards: the uniform branch assigns
`sppCount >= 1` and the adaptive branch assigns `adaptiveSamples + 1` with
`adaptiveSamples >= 0`. -/
theorem C5_every_record_at_least_one (cfg : RendererCfg) (draws : ℕ → ℚ)
    (sppFrom sppTo : ℕ) (recs : List SampleRecord)
    (herr : ∀ r ∈ recs, 0 ≤ r.errorEstimate)
    (hspp : sppFrom < sppTo)
    (htrue : (generateWork cfg draws sppFrom sppTo recs).1 = true) :
    ∀ r ∈ (generateWork cfg draws sppFrom sppTo recs).2, 1 ≤ r.nextSampleCount := by
  have hsppc : (1 : ℤ) ≤ (sppTo : ℤ) - (sppFrom : ℤ) := by
    have : (sppFrom : ℤ) < sppTo := by exact_mod_cast hspp
    omega
  by_cases hcond : cfg.enableAdaptive = true ∧ cfg.threshold ≤ sppFrom
  · simp only [generateWork] at htrue ⊢
    rw [if_pos hcond] at htrue ⊢
    by_cases h0 : (errorPercentile95
        (recs.map (fun r => { r with sampleIndex := r.sampleIndex + r.nextSampleCount }))).1 = 0
    · rw [if_pos h0] at htrue
      exact absurd htrue (by simp)
    · rw [if_neg h0] at htrue ⊢
      simp only []
      have hpos := errorPercentile95_pos _ h0
      have hmax : 0 ≤ (errorPercentile95
          (recs.map (fun r => { r with sampleIndex := r.sampleIndex + r.nextSampleCount }))).1 :=
        le_of_lt hpos.1
      apply distributeAdaptiveSamples_ge_one _ _ _ _ _ hsppc
      intro r hr
      obtain ⟨i, hi, rfl⟩ := List.mem_map.mp hr
      simp only []
      refine le_trans ?_ (dilate_le_pointwise _ _ _ i)
      apply getD_weight_nonneg
      intro r2 hr2
      rw [errorPercentile95_snd] at hr2
      obtain ⟨r1, hr1, rfl⟩ := List.mem_map.mp hr2
      obtain ⟨r0, hr0, rfl⟩ := List.mem_map.mp hr1
      obtain ⟨rr, hrr, rfl⟩ := List.mem_map.mp hr0
      simp only []
      exact le_min (herr rr hrr) hmax

  · simp only [generateWork] at htrue ⊢
    rw [if_neg hcond] at htrue ⊢
    simp only []
    intro r hr
    obtain ⟨r0, _, rfl⟩ := List.mem_map.mp hr
    simpa using hsppc

/-- Helper: scheduled total of the uniform branch. -/
theorem sum_map_setNext (l : List SampleRecord) (c : ℤ) :
    ((l.map (fun r => { r with nextSampleCount := c })).map (fun r => r.nextSampleCount)).sum
      = (l.length : ℤ) * c := by
  induction l with
  | nil => simp
  | cons a t ih =>
    rw [List.map_cons, List.map_cons, List.sum_cons, ih, List.length_cons]
    push_cast
    ring

/-- C1 (amended): after generateWork with `sppCount = sppTo - sppFrom` on a
full grid of `Wv*Hv` variance cells, the sum of nextSampleCount over all
SampleRecords is exactly `sppCount * Wv * Hv` in the non-adaptive branch, and
exactly `((sppCount - 1) * W * H) / VTS^2 + Wv * Hv` (C++ integer division) in
the adaptive branch, for every nonnegative error configuration with nonzero
total weight and every sampler stream with draws in `[0, 1)`. -/
theorem C1_budget_sums (cfg : RendererCfg) (draws : ℕ → ℚ) (sppFrom sppTo : ℕ)
    (recs : List SampleRecord)
    (herr : ∀ r ∈ recs, 0 ≤ r.errorEstimate)
    (hd0 : ∀ j, 0 ≤ draws j) (hd1 : ∀ j, draws j < 1)
    (hspp : sppFrom < sppTo)
    (hlen : recs.length = varianceW cfg * varianceH cfg) :
    (¬(cfg.enableAdaptive = true ∧ cfg.threshold ≤ sppFrom) →
      ((generateWork cfg draws sppFrom sppTo recs).2.map (fun r => r.nextSampleCount)).sum
        = ((sppTo : ℤ) - (sppFrom : ℤ)) * ((varianceW cfg * varianceH cfg : ℕ) : ℤ)) ∧
    ((cfg.enableAdaptive = true ∧ cfg.threshold ≤ sppFrom) →
      (generateWork cfg draws sppFrom sppTo recs).1 = true →
      ((generateWork cfg draws sppFrom sppTo recs).2.map (fun r => r.nextSampleCount)).sum
        = Int.tdiv ((((sppTo : ℤ) - (sppFrom : ℤ)) - 1) * (cfg.w : ℤ) * (cfg.h : ℤ))
            ((cfg.vts : ℤ) * (cfg.vts : ℤ))
          + ((varianceW cfg * varianceH cfg : ℕ) : ℤ)) := by
  have hsppc : (1 : ℤ) ≤ (sppTo : ℤ) - (sppFrom : ℤ) := by
    have : (sppFrom : ℤ) < sppTo := by exact_mod_cast hspp
    omega
  constructor
  · intro hcond
    simp only [generateWork]
    rw [if_neg hcond]
    simp only []
    rw [sum_map_setNext, List.length_map, hlen]
    ring
  · intro hcond htrue
    simp only [generateWork] at htrue ⊢
    rw [if_pos hcond] at htrue ⊢
    by_cases h0 : (errorPercentile95
        (recs.map (fun r => { r with sampleIndex := r.sampleIndex + r.nextSampleCount }))).1 = 0
    · rw [if_pos h0] at htrue
      exact absurd htrue (by simp)
    · rw [if_neg h0] at htrue ⊢
      simp only []
      set recs0 := recs.map (fun r => { r with sampleIndex := r.sampleIndex + r.nextSampleCount })
        with hrecs0
      set maxError := (errorPercentile95 recs0).1 with hmaxE
      set recs2 := (errorPercentile95 recs0).2.map
        (fun r => { r with adaptiveWeight := min r.adaptiveWeight maxError }) with hrecs2
      set ws1 := dilateAdaptiveWeights (varianceW cfg) (varianceH cfg)
        (fun i => (recs2.getD i default).adaptiveWeight) with hws1
      set recs3 := (List.range recs2.length).map
        (fun i => { recs2.getD i default with adaptiveWeight := ws1 i }) with hrecs3
      obtain ⟨hmaxpos, rstar, hrstar, herrstar⟩ := errorPercentile95_pos recs0 h0
      have hlen2 : recs2.length = recs0.length := by
        rw [hrecs2, List.length_map, errorPercentile95_snd, List.length_map]
      have hlen0 : recs0.length = recs.length := by
        rw [hrecs0, List.length_map]
      have hw2 : ∀ r ∈ recs2, 0 ≤ r.adaptiveWeight := by
        intro r2 hr2
        rw [hrecs2, errorPercentile95_snd] at hr2
        obtain ⟨r1, hr1, rfl⟩ := List.mem_map.mp hr2
        obtain ⟨r0, hr0, rfl⟩ := List.mem_map.mp hr1
        rw [hrecs0] at hr0
        obtain ⟨rr, hrr, rfl⟩ := List.mem_map.mp hr0
        simp only []
        exact le_min (herr rr hrr) (le_of_lt hmaxpos)
      have hwsnn : ∀ i, 0 ≤ ws1 i := by
        intro i
        refine le_trans (getD_weight_nonneg recs2 hw2 i) (dilate_le_pointwise _ _ _ i)
      have hw3 : ∀ r ∈ recs3, 0 ≤ r.adaptiveWeight := by
        intro r hr
        rw [hrecs3] at hr
        obtain ⟨i, _, rfl⟩ := List.mem_map.mp hr
        simp only []
        exact hwsnn i
      obtain ⟨j, hj, hjeq⟩ := List.mem_iff_getElem.mp hrstar
      have hj2 : j < recs2.length := by
        rw [hlen2]
        exact hj
      have hwj : 0 < (recs2.getD j default).adaptiveWeight := by
        rw [hrecs2, errorPercentile95_snd]
        have hjlen : j < ((recs0.map (fun r => { r with adaptiveWeight := r.errorEstimate })).map
            (fun r => { r with adaptiveWeight := min r.adaptiveWeight maxError })).length := by
          rw [List.length_map, List.length_map]
          exact hj
        rw [List.getD_eq_getElem _ _ hjlen, List.getElem_map, List.getElem_map]
        simp only []
        rw [hjeq]
        exact lt_min herrstar hmaxpos
      have hpos3 : 0 < (recs3.map (fun r => r.adaptiveWeight)).sum := by
        have hmapeq : recs3.map (fun r => r.adaptiveWeight)
            = (List.range recs2.length).map ws1 := by
          rw [hrecs3, List.map_map]
          rfl
        rw [hmapeq]
        exact sum_range_pos ws1 recs2.length j hj2 hwsnn
          (lt_of_lt_of_le hwj (dilate_le_pointwise _ _ _ j))
      have hlen3 : recs3.length = recs.length := by
        rw [hrecs3, List.length_map, List.length_range, hlen2, hlen0]
      rw [distributeAdaptiveSamples_sum cfg _ draws recs3 hd0 hd1 hw3 hpos3 hsppc]
      rw [hlen3, hlen]

/-- C1 counterexample: a 4x4 image with VarianceTileSize 4 has a single
variance cell, so the non-adaptive sum of nextSampleCount over SampleRecords
is `sppCount = 2`, not `sppCount * W * H = 32`. -/
theorem C1_counterexample :
    ¬(((generateWork ⟨4, 4, 4, 16, false⟩ (fun _ => 0) 0 2 [⟨0, 0, 0, 0⟩]).2.map
        (fun r => r.nextSampleCount)).sum = ((2 : ℤ) - 0) * (4 * 4)) := by
  intro h
  have h2 : ((generateWork ⟨4, 4, 4, 16, false⟩ (fun _ => 0) 0 2 [⟨0, 0, 0, 0⟩]).2.map
      (fun r => r.nextSampleCount)).sum = 2 := by decide
  rw [h2] at h
  norm_num at h

/-- C1 witness: the non-adaptive scheduled total equals
`sppCount * varianceW * varianceH` on a concrete configuration. -/
theorem C1_witness :
    (0 : ℕ) < 2 ∧
    ((generateWork ⟨4, 4, 4, 16, false⟩ (fun _ => 0) 0 2 [⟨0, 0, 0, 0⟩]).2.map
        (fun r => r.nextSampleCount)).sum
      = ((2 : ℤ) - (0 : ℤ)) * ((varianceW ⟨4, 4, 4, 16, false⟩
          * varianceH ⟨4, 4, 4, 16, false⟩ : ℕ) : ℤ) :=
  ⟨by norm_num,
    (C1_budget_sums ⟨4, 4, 4, 16, false⟩ (fun _ => 0) 0 2 [⟨0, 0, 0, 0⟩]
      (by
        intro r hr
        rw [List.mem_singleton] at hr
        subst hr
        norm_num)
      (fun _ => le_refl 0) (fun _ => by norm_num) (by norm_num)
      (by decide)).1 (by decide)⟩

/-- C5 witness: the concrete uniform pass schedules 2 samples for the single
cell, at least 1. -/
theorem C5_witness :
    (0 : ℕ) < 2 ∧ 1 ≤ (SampleRecord.mk 0 2 0 0).nextSampleCount :=
  ⟨by norm_num,
    C5_every_record_at_least_one ⟨4, 4, 4, 16, false⟩ (fun _ => 0) 0 2 [⟨0, 0, 0, 0⟩]
      (by
        intro r hr
        rw [List.mem_singleton] at hr
        subst hr
        norm_num)
      (by norm_num) (by decide) ⟨0, 2, 0, 0⟩ (by decide)⟩

end Tungsten
